import Mathlib

/-!
Verification of the metamove solver of the twisty-puzzles repository.

The solver itself (`MetaMoveSolver` in `src/rust/src/solver/metamove_solver.rs`)
is embedded faithfully below.  Its collaborators (`TwistyPuzzle`, `MetaMove`,
`traverse_combinations`) live in modules whose sources are not part of the
repository snapshot; those are modelled from the specification document, as
indicated in the individual doc comments.
-/

namespace TwistyPuzzles

/-- Modelled from the spec: a face map is "a total permutation from
piece-position index to piece-position index", represented as the list of
source positions: applying `fm` to a state puts at position `j` the piece that
previously sat at position `fm[j]`. -/
abbrev FaceMap := List Nat

/-- Modelled from the spec: a puzzle is "a fixed ordered list of pieces and a
fixed ordered list of turns", where each turn has a face map.  The ordered
list of pieces is the canonical solved arrangement (`initial_state`). -/
structure TwistyPuzzle where
  initial_state : List Nat
  turns : List FaceMap
deriving DecidableEq, Repr

/-- Modelled from the spec: a puzzle state is "a mapping from position index to
the piece identifier currently occupying it". -/
abbrev PuzzleState := List Nat

def TwistyPuzzle.get_num_pieces (p : TwistyPuzzle) : Nat :=
  p.initial_state.length

def TwistyPuzzle.get_initial_state (p : TwistyPuzzle) : PuzzleState :=
  p.initial_state

/-- The identity face map on `n` positions. -/
def identityFaceMap (n : Nat) : FaceMap := List.range n

/-- Modelled from the spec: `derive_state(state, face_map)` "applies a
permutation (or a single turn's face map) to a state; pure, never fails for
well-formed input". -/
def TwistyPuzzle.get_derived_state (_p : TwistyPuzzle) (state : PuzzleState)
    (fm : FaceMap) : PuzzleState :=
  fm.map (fun i => state.getD i 0)

/-- Composition of face maps: applying `f` and then `g` is the same as applying
`composeFaceMap f g` once. -/
def composeFaceMap (f g : FaceMap) : FaceMap :=
  g.map (fun j => f.getD j 0)

/-- Modelled from the spec: applying a single turn, looked up by its index in
the puzzle's fixed turn table. -/
def TwistyPuzzle.get_derived_state_turn_index (p : TwistyPuzzle)
    (state : PuzzleState) (turn_index : Nat) : PuzzleState :=
  p.get_derived_state state (p.turns.getD turn_index (identityFaceMap p.get_num_pieces))

/-- Modelled from the spec: `score(state)` is the "number of positions whose
occupant matches the solved state". -/
def TwistyPuzzle.get_num_solved_pieces (p : TwistyPuzzle) (state : PuzzleState) : Nat :=
  (state.zip p.initial_state).countP (fun ab => decide (ab.1 = ab.2))

/-- Number of positions where a face map differs from the identity. -/
def countAffected (fm : FaceMap) : Nat :=
  (List.range fm.length).countP (fun i => decide (fm.getD i 0 ≠ i))

/-- Modelled from the spec: a MetaMove is a sequence of turn indices together
with the composed face map and the cached count of displaced pieces
(`num_affected_pieces` is "always derivable from `face_map`").  The `Rc`
handle on the puzzle carried by the Rust value is metadata only and is passed
explicitly where needed. -/
structure MetaMove where
  turns : List Nat
  face_map : FaceMap
  num_affected_pieces : Nat
deriving DecidableEq, Repr

/-- Modelled from the spec: constructing a MetaMove from its turn list and the
already-composed face map; the displaced-piece count is derived. -/
def MetaMove.new (turns : List Nat) (face_map : FaceMap) : MetaMove :=
  { turns := turns, face_map := face_map, num_affected_pieces := countAffected face_map }

/-- The empty MetaMove: no turns, identity net effect. -/
def MetaMove.empty (p : TwistyPuzzle) : MetaMove :=
  MetaMove.new [] (identityFaceMap p.get_num_pieces)

/-- Modelled from the spec: combining two MetaMoves is "permutation composition
plus turn-list concatenation". -/
def MetaMove.apply (m1 m2 : MetaMove) : MetaMove :=
  MetaMove.new (m1.turns ++ m2.turns) (composeFaceMap m1.face_map m2.face_map)

/-- The MetaMove wrapping the single turn with the given index. -/
def turnMetaMove (p : TwistyPuzzle) (turn_index : Nat) : MetaMove :=
  MetaMove.new [turn_index] (p.turns.getD turn_index (identityFaceMap p.get_num_pieces))

/-- Modelled from the spec: building a MetaMove from a turn sequence by
composing the face maps of the turns in order. -/
def MetaMove.new_infer_face_map (p : TwistyPuzzle) (turns : List Nat) : MetaMove :=
  turns.foldl (fun acc i => acc.apply (turnMetaMove p i)) (MetaMove.empty p)

/-- The visitor's control signal for the combination traversal. -/
inductive TraverseResult where
  | Continue
  | Break
deriving DecidableEq, Repr

/-- Modelled from the spec (Combination Traversal Engine): visit, depth-first
and in pool order, every extension of the accumulated combination by one more
candidate, handing each visited combination to the stateful visitor; `Break`
aborts the entire traversal immediately.  `travSibs` walks the remaining
candidates at the current level, `child` explores below a just-visited node. -/
def travSibs {α σ : Type} (combine : α → α → α) (visit : σ → α → σ × TraverseResult)
    (child : α → σ → σ × TraverseResult) : List α → α → σ → σ × TraverseResult
  | [], _, s => (s, TraverseResult.Continue)
  | c :: cs, acc, s =>
    match visit s (combine acc c) with
    | (s1, TraverseResult.Break) => (s1, TraverseResult.Break)
    | (s1, TraverseResult.Continue) =>
      match child (combine acc c) s1 with
      | (s2, TraverseResult.Break) => (s2, TraverseResult.Break)
      | (s2, TraverseResult.Continue) => travSibs combine visit child cs acc s2

/-- Modelled from the spec: the recursive depth-bounded exploration; `fuel` is
the number of levels that may still be visited below `acc`. -/
def travNodes {α σ : Type} (pool : List α) (combine : α → α → α)
    (visit : σ → α → σ × TraverseResult) : Nat → α → σ → σ × TraverseResult
  | 0, _, s => (s, TraverseResult.Continue)
  | fuel + 1, acc, s => travSibs combine visit (travNodes pool combine visit fuel) pool acc s

/-- Modelled from the spec: `traverse(pool, max_depth, seed, combine_fn,
visit_fn)`; the visitor threads an explicit state `s0` (the Rust closure's
captured mutable environment). -/
def traverse_combinations {α σ : Type} (pool : List α) (max_depth : Nat) (seed : α)
    (combine : α → α → α) (visit : σ → α → σ × TraverseResult) (s0 : σ) :
    σ × TraverseResult :=
  travNodes pool combine visit max_depth seed s0

/-- The list of combinations a full (never-`Break`ing) traversal visits below
`acc` with `fuel` levels remaining, in visitation order. -/
def visitedNodes {α : Type} (pool : List α) (combine : α → α → α) : Nat → α → List α
  | 0, _ => []
  | fuel + 1, acc =>
    pool.flatMap (fun c => combine acc c :: visitedNodes pool combine fuel (combine acc c))

/-- Linear scan with early exit: process the list left to right with `step`,
stopping (with `Break`) right after the first element satisfying `brk`.  A
traversal whose visitor's `Break` decision depends only on the visited node
runs exactly like this scan over its visitation list. -/
def scanBreak {α σ : Type} (step : σ → α → σ) (brk : α → Bool) :
    σ → List α → σ × TraverseResult
  | s, [] => (s, TraverseResult.Continue)
  | s, a :: l =>
    if brk a then (step s a, TraverseResult.Break)
    else scanBreak step brk (step s a) l

/-- `x` is a combination of between 1 and `d` elements of `pool`, folded onto
the empty MetaMove of `p`. -/
def IsCombo (pool : List MetaMove) (p : TwistyPuzzle) (d : Nat) (x : MetaMove) : Prop :=
  ∃ l : List MetaMove, l ≠ [] ∧ l.length ≤ d ∧ (∀ c ∈ l, c ∈ pool) ∧
    x = l.foldl MetaMove.apply (MetaMove.empty p)

/-- Score of the state reached from `state` by the net effect of `x`. -/
def scoreAfter (p : TwistyPuzzle) (state : PuzzleState) (x : MetaMove) : Nat :=
  p.get_num_solved_pieces (p.get_derived_state state x.face_map)

/-- Modelled from the spec: `discover_metamoves` runs the Traversal Engine over
the puzzle's raw turns, "composing MetaMoves at every depth, keeping any
visited MetaMove for which `accept_fn` holds"; it never `Break`s. -/
def discover_metamoves (p : TwistyPuzzle) (accept : MetaMove → Bool)
    (max_depth : Nat) : List MetaMove :=
  (traverse_combinations ((List.range p.turns.length).map (turnMetaMove p)) max_depth
    (MetaMove.empty p) MetaMove.apply
    (fun acc mm => (if accept mm then acc ++ [mm] else acc, TraverseResult.Continue))
    []).1

/-- Modelled from the spec: `combine_metamoves` is "the same traversal, but the
candidate pool is a previously discovered metamove set rather than raw turns". -/
def combine_metamoves (p : TwistyPuzzle) (accept : MetaMove → Bool)
    (base_metamoves : List MetaMove) (depth : Nat) : List MetaMove :=
  (traverse_combinations base_metamoves depth (MetaMove.empty p) MetaMove.apply
    (fun acc mm => (if accept mm then acc ++ [mm] else acc, TraverseResult.Continue))
    []).1

/-- Modelled from the spec: repeat-expansion derives "additional candidate
metamoves ... by repeating it against itself some number of times".  The spec
does not fix the number of repetitions; a single self-application is modelled. -/
def MetaMove.discover_repeat_metamoves (mm : MetaMove) : List MetaMove :=
  [mm.apply mm]

/-- One step of `filter_duplicates`: insert a MetaMove into the effect-keyed
table, mirroring the `HashMap` entry logic of the source (vacant: insert;
occupied: replace only when the stored representative has strictly more
turns). -/
def fdInsert : List (FaceMap × MetaMove) → MetaMove → List (FaceMap × MetaMove)
  | [], mm => [(mm.face_map, mm)]
  | (k, v) :: rest, mm =>
    if k = mm.face_map then
      (if v.turns.length > mm.turns.length then (k, mm) else (k, v)) :: rest
    else
      (k, v) :: fdInsert rest mm

/-- `filter_duplicates` from `metamove_solver.rs`: group by `face_map`, keep
per effect the representative with the fewest turns (the hash map is modelled
as an insertion-ordered association list; the claims proved about the result
are order-independent). -/
def filter_duplicates (metamoves : List MetaMove) : List MetaMove :=
  (metamoves.foldl fdInsert []).map Prod.snd

/-- The ordering used by `metamoves.sort()`: primarily by `num_affected_pieces`
ascending, then by number of turns ascending (spec, Data Model section). -/
def mmLe (a b : MetaMove) : Prop :=
  a.num_affected_pieces < b.num_affected_pieces ∨
    (a.num_affected_pieces = b.num_affected_pieces ∧ a.turns.length ≤ b.turns.length)

instance (a b : MetaMove) : Decidable (mmLe a b) := by
  unfold mmLe
  infer_instance

def mmInsertSorted (a : MetaMove) : List MetaMove → List MetaMove
  | [] => [a]
  | b :: rest => if mmLe a b then a :: b :: rest else b :: mmInsertSorted a rest

/-- Insertion sort by the MetaMove ordering, modelling `metamoves.sort()`. -/
def sortMetaMoves : List MetaMove → List MetaMove
  | [] => []
  | a :: rest => mmInsertSorted a (sortMetaMoves rest)

/-- The two phases of the metamove solver (source: `SolvePhase`). -/
inductive SolvePhase where
  | Search
  | Metamoves
deriving DecidableEq, Repr

/-- The solver state (source: `struct MetaMoveSolver`).  The `VecDeque` of
buffered turns is a list with its front at the head. -/
structure MetaMoveSolver where
  puzzle : TwistyPuzzle
  state : PuzzleState
  phase : SolvePhase
  depth : Nat
  metamoves : List MetaMove
  buffered_turns : List Nat
deriving DecidableEq, Repr

/-- The acceptance predicate `MetaMoveSolver::new` passes to
`discover_metamoves` (source lines 51-58): keep a MetaMove iff it affects
fewer pieces than `turn_num_affected_pieces`, the displaced-piece count of the
single turn with index 0. -/
def metamoveAcceptFn (p : TwistyPuzzle) (mm : MetaMove) : Bool :=
  decide (mm.num_affected_pieces <
    (MetaMove.new_infer_face_map p [0]).num_affected_pieces)

/-- `MetaMoveSolver::new` (source lines 44-126).  The `unwrap()` calls on
`metamoves.iter().min()` (lines 61, 71, 101) and the explicit
`throw_str("no metamoves")` (line 111) abort construction; aborts are
modelled as `none`. -/
def MetaMoveSolver.new (p : TwistyPuzzle) (initial_state : PuzzleState) :
    Option MetaMoveSolver :=
  let max_discover_metamoves_depth := 5
  let metamoves1 := discover_metamoves p (metamoveAcceptFn p) max_discover_metamoves_depth
  if metamoves1 = [] then none else
  let metamoves2 := combine_metamoves p (fun _ => true) metamoves1 2
  if metamoves2 = [] then none else
  let metamoves3 := filter_duplicates metamoves2
  let metamoves4 := (metamoves3.flatMap
      (fun mm => mm.discover_repeat_metamoves ++ [mm])).filter
      (fun mm => decide (mm.num_affected_pieces ≤ 3))
  let metamoves5 := filter_duplicates metamoves4
  if metamoves5 = [] then none else
  let metamoves6 := sortMetaMoves metamoves5
  if metamoves6 = [] then none else
  some { puzzle := p, state := initial_state, phase := SolvePhase.Search,
         depth := 2, metamoves := metamoves6, buffered_turns := [] }

/-- The visitor of `find_best_metamove` (source lines 238-252): record a
combination that strictly improves the best score; `Break` as soon as a
visited combination reaches a fully solved state. -/
def fbVisit (p : TwistyPuzzle) (state : PuzzleState) :
    MetaMove × Nat → MetaMove → (MetaMove × Nat) × TraverseResult :=
  fun bs mm =>
    let next_state_score := scoreAfter p state mm
    let bs1 := if bs.2 < next_state_score then (mm, next_state_score) else bs
    if next_state_score = p.get_num_pieces then (bs1, TraverseResult.Break)
    else (bs1, TraverseResult.Continue)

/-- The pure state-update part of `fbVisit`. -/
def fbStep (p : TwistyPuzzle) (state : PuzzleState) (bs : MetaMove × Nat)
    (mm : MetaMove) : MetaMove × Nat :=
  if bs.2 < scoreAfter p state mm then (mm, scoreAfter p state mm) else bs

/-- The `Break` condition of `fbVisit`: the visited combination reaches a fully
solved state. -/
def fbBrk (p : TwistyPuzzle) (state : PuzzleState) (mm : MetaMove) : Bool :=
  decide (scoreAfter p state mm = p.get_num_pieces)

/-- The state-update part of the logged `fbVisit`. -/
def fbLogStep (p : TwistyPuzzle) (state : PuzzleState)
    (sl : (MetaMove × Nat) × List MetaMove) (mm : MetaMove) :
    (MetaMove × Nat) × List MetaMove :=
  (fbStep p state sl.1 mm, sl.2 ++ [mm])

/-- `find_best_metamove` (source lines 222-256). -/
def find_best_metamove (p : TwistyPuzzle) (state : PuzzleState)
    (metamoves : List MetaMove) (depth : Nat) : MetaMove :=
  (traverse_combinations metamoves depth (MetaMove.empty p) MetaMove.apply
    (fbVisit p state) (MetaMove.empty p, p.get_num_solved_pieces state)).1.1

/-- A visitor wrapper that additionally records every visited combination, used
to state which combinations a traversal actually visits. -/
def loggedVisit {α σ : Type} (visit : σ → α → σ × TraverseResult) :
    σ × List α → α → (σ × List α) × TraverseResult :=
  fun sl a => (((visit sl.1 a).1, sl.2 ++ [a]), (visit sl.1 a).2)

/-- `find_best_metamove` instrumented with the list of visited combinations. -/
def find_best_metamove_log (p : TwistyPuzzle) (state : PuzzleState)
    (metamoves : List MetaMove) (depth : Nat) :
    ((MetaMove × Nat) × List MetaMove) × TraverseResult :=
  traverse_combinations metamoves depth (MetaMove.empty p) MetaMove.apply
    (loggedVisit (fbVisit p state))
    ((MetaMove.empty p, p.get_num_solved_pieces state), [])

/-- The update step of the Search-phase visitor (source lines 171-182): replace
the best combination when the score strictly improves, or on an equal score
with strictly fewer turns. -/
def searchStep (p : TwistyPuzzle) (state : PuzzleState)
    (bs : MetaMove × Nat) (mm : MetaMove) : MetaMove × Nat :=
  let next_state_score := scoreAfter p state mm
  if bs.2 < next_state_score ∨
      (next_state_score = bs.2 ∧ mm.turns.length < bs.1.turns.length) then
    (mm, next_state_score)
  else bs

/-- The Search-phase visitor, which never `Break`s. -/
def searchVisit (p : TwistyPuzzle) (state : PuzzleState) :
    MetaMove × Nat → MetaMove → (MetaMove × Nat) × TraverseResult :=
  fun bs mm => (searchStep p state bs mm, TraverseResult.Continue)

/-- The pool of single-turn MetaMoves built in the Search phase
(source lines 149-161). -/
def individual_turns_metamoves (p : TwistyPuzzle) : List MetaMove :=
  (List.range p.turns.length).map (turnMetaMove p)

/-- One Search-phase traversal at the given depth, continuing from the carried
best combination and score (source lines 163-183). -/
def searchRun (p : TwistyPuzzle) (state : PuzzleState) (bs : MetaMove × Nat)
    (depth : Nat) : MetaMove × Nat :=
  (traverse_combinations (individual_turns_metamoves p) depth (MetaMove.empty p)
    MetaMove.apply (searchVisit p state) bs).1

/-- Outcome of the Search-phase loop body: a turn was found and applied, the
`first()?` escape fired on an empty turn list, or no depth yielded any
improvement. -/
inductive SearchOutcome where
  | found : Nat → MetaMoveSolver → SearchOutcome
  | earlyNone : SearchOutcome
  | noneFound : SearchOutcome

/-- Applying the first turn of the chosen combination and buffering the rest
(source lines 185-197 and 208-217). -/
def applyBest (s : MetaMoveSolver) (best : MetaMove) : SearchOutcome :=
  match best.turns with
  | [] => SearchOutcome.earlyNone
  | t :: rest =>
    SearchOutcome.found t
      { s with
        state := s.puzzle.get_derived_state_turn_index s.state t,
        buffered_turns := if 1 < (t :: rest).length then rest else s.buffered_turns }

/-- The Search-phase `for depth in 4..=5` loop (source lines 145-199), with the
best combination and score carried across the two depths exactly as in the
source. -/
def searchAttempt (s : MetaMoveSolver) : SearchOutcome :=
  let bs0 := (MetaMove.empty s.puzzle, s.puzzle.get_num_solved_pieces s.state)
  let bs4 := searchRun s.puzzle s.state bs0 4
  if bs4.1.num_affected_pieces ≠ 0 then applyBest s bs4.1
  else
    let bs5 := searchRun s.puzzle s.state bs4 5
    if bs5.1.num_affected_pieces ≠ 0 then applyBest s bs5.1
    else SearchOutcome.noneFound

/-- The Metamoves-phase part of a pull (source lines 202-218). -/
def metamovePull (s : MetaMoveSolver) : Option Nat × MetaMoveSolver :=
  match (find_best_metamove s.puzzle s.state s.metamoves s.depth).turns with
  | [] => (none, s)
  | t :: rest =>
    (some t,
      { s with
        state := s.puzzle.get_derived_state_turn_index s.state t,
        buffered_turns := if 1 < (t :: rest).length then rest else s.buffered_turns })

/-- `Iterator::next` for `MetaMoveSolver` (source lines 136-219): drain the
buffer first; otherwise in the Search phase run the shallow raw-turn search
(falling through, after setting the phase, to the Metamoves code when no
improvement exists); in the Metamoves phase search the metamove library. -/
def MetaMoveSolver.next (s : MetaMoveSolver) : Option Nat × MetaMoveSolver :=
  match s.buffered_turns with
  | next_turn :: rest =>
    (some next_turn,
      { s with
        state := s.puzzle.get_derived_state_turn_index s.state next_turn,
        buffered_turns := rest })
  | [] =>
    if s.phase = SolvePhase.Search then
      match searchAttempt s with
      | SearchOutcome.found t s1 => (some t, s1)
      | SearchOutcome.earlyNone => (none, s)
      | SearchOutcome.noneFound => metamovePull { s with phase := SolvePhase.Metamoves }
    else
      metamovePull s

/-- Well-formedness of a puzzle: every turn's face map is a total map over the
position index range. -/
def TwistyPuzzle.WF (p : TwistyPuzzle) : Prop :=
  ∀ fm ∈ p.turns, fm.length = p.get_num_pieces ∧ ∀ j ∈ fm, j < p.get_num_pieces

instance (p : TwistyPuzzle) : Decidable p.WF := by
  unfold TwistyPuzzle.WF
  infer_instance

/-- The three dedup properties claimed for `filter_duplicates`. -/
def filterDuplicatesSpec (l : List MetaMove) : Prop :=
  (filter_duplicates l).Pairwise (fun a b => a.face_map ≠ b.face_map) ∧
  (∀ mm ∈ filter_duplicates l, mm ∈ l) ∧
  (∀ mm ∈ filter_duplicates l, ∀ y ∈ l, y.face_map = mm.face_map →
    mm.turns.length ≤ y.turns.length)

/-- The Search-phase contract: depth 4 is tried first; an improving
combination at a tried depth is optimal there (max score, fewest turns among
the maximal), its first turn is applied and returned with the rest buffered,
and later depths are not consulted; with no improvement anywhere the solver
falls through to the Metamoves phase. -/
def searchPhaseSpec (s : MetaMoveSolver) : Prop :=
  (((∃ x, IsCombo (individual_turns_metamoves s.puzzle) s.puzzle 4 x ∧
      s.puzzle.get_num_solved_pieces s.state < scoreAfter s.puzzle s.state x) →
    ∃ b t rest, b.turns = t :: rest ∧
      IsCombo (individual_turns_metamoves s.puzzle) s.puzzle 4 b ∧
      s.puzzle.get_num_solved_pieces s.state < scoreAfter s.puzzle s.state b ∧
      (∀ x, IsCombo (individual_turns_metamoves s.puzzle) s.puzzle 4 x →
        scoreAfter s.puzzle s.state x ≤ scoreAfter s.puzzle s.state b) ∧
      (∀ x, IsCombo (individual_turns_metamoves s.puzzle) s.puzzle 4 x →
        scoreAfter s.puzzle s.state x = scoreAfter s.puzzle s.state b →
        b.turns.length ≤ x.turns.length) ∧
      s.next = (some t,
        { s with
          state := s.puzzle.get_derived_state_turn_index s.state t,
          buffered_turns := rest })) ∧
  ((¬ ∃ x, IsCombo (individual_turns_metamoves s.puzzle) s.puzzle 4 x ∧
      s.puzzle.get_num_solved_pieces s.state < scoreAfter s.puzzle s.state x) →
    (∃ x, IsCombo (individual_turns_metamoves s.puzzle) s.puzzle 5 x ∧
      s.puzzle.get_num_solved_pieces s.state < scoreAfter s.puzzle s.state x) →
    ∃ b t rest, b.turns = t :: rest ∧
      IsCombo (individual_turns_metamoves s.puzzle) s.puzzle 5 b ∧
      s.puzzle.get_num_solved_pieces s.state < scoreAfter s.puzzle s.state b ∧
      (∀ x, IsCombo (individual_turns_metamoves s.puzzle) s.puzzle 5 x →
        scoreAfter s.puzzle s.state x ≤ scoreAfter s.puzzle s.state b) ∧
      (∀ x, IsCombo (individual_turns_metamoves s.puzzle) s.puzzle 5 x →
        scoreAfter s.puzzle s.state x = scoreAfter s.puzzle s.state b →
        b.turns.length ≤ x.turns.length) ∧
      s.next = (some t,
        { s with
          state := s.puzzle.get_derived_state_turn_index s.state t,
          buffered_turns := rest })) ∧
  ((¬ ∃ x, IsCombo (individual_turns_metamoves s.puzzle) s.puzzle 5 x ∧
      s.puzzle.get_num_solved_pieces s.state < scoreAfter s.puzzle s.state x) →
    s.next = metamovePull { s with phase := SolvePhase.Metamoves }))

/-- Properties of one `fbVisit` traversal call over the visited set `E`:
the best score never decreases; the resulting best is either untouched or a
visited combination achieving the resulting (strictly improved) score; if no
visited combination beats the incoming score the pair is unchanged; if some
visited combination beats it the score strictly increases; and from an
unsolved incoming score, `Break` happens exactly on reaching the full score. -/
def FBOK (p : TwistyPuzzle) (st : PuzzleState) (E : List MetaMove)
    (bs : MetaMove × Nat) (r : (MetaMove × Nat) × TraverseResult) : Prop :=
  bs.2 ≤ r.1.2 ∧
  ((r.1.1 = bs.1 ∧ r.1.2 = bs.2) ∨
    (r.1.1 ∈ E ∧ scoreAfter p st r.1.1 = r.1.2 ∧ bs.2 < r.1.2)) ∧
  ((∀ x ∈ E, scoreAfter p st x ≤ bs.2) → r.1 = bs) ∧
  (bs.2 < p.get_num_pieces → (∃ x ∈ E, bs.2 < scoreAfter p st x) → bs.2 < r.1.2) ∧
  (bs.2 < p.get_num_pieces →
    (r.2 = TraverseResult.Break → r.1.2 = p.get_num_pieces) ∧
    (r.2 = TraverseResult.Continue → r.1.2 < p.get_num_pieces))

/-- Properties of one logged `fbVisit` traversal call: the log grows by the
visited region; on `Continue` no visited combination was fully solving; on
`Break` exactly the last visited combination was fully solving, and (when the
incoming score was not already full) it became the recorded best. -/
def FBLogOK (p : TwistyPuzzle) (st : PuzzleState)
    (inp : (MetaMove × Nat) × List MetaMove)
    (out : ((MetaMove × Nat) × List MetaMove) × TraverseResult) : Prop :=
  ∃ reg,
    out.1.2 = inp.2 ++ reg ∧
    (out.2 = TraverseResult.Continue →
      (∀ v ∈ reg, scoreAfter p st v ≠ p.get_num_pieces) ∧
      (inp.1.2 < p.get_num_pieces → out.1.1.2 < p.get_num_pieces)) ∧
    (out.2 = TraverseResult.Break →
      ∃ reg0 v, reg = reg0 ++ [v] ∧
        (∀ u ∈ reg0, scoreAfter p st u ≠ p.get_num_pieces) ∧
        scoreAfter p st v = p.get_num_pieces ∧
        (inp.1.2 < p.get_num_pieces →
          out.1.1.1 = v ∧ out.1.1.2 = p.get_num_pieces))

/-- Invariant of the Search-phase selection fold: every combination seen so far
scores at most the recorded best score, and the recorded best is either the
untouched seed (no strict improvement seen) or a seen combination achieving
the best score with the fewest turns among seen best-scorers. -/
def SInvP (p : TwistyPuzzle) (st : PuzzleState) (s0 : Nat) (seen : List MetaMove)
    (bs : MetaMove × Nat) : Prop :=
  (∀ x ∈ seen, scoreAfter p st x ≤ bs.2) ∧
  ((bs.1 = MetaMove.empty p ∧ bs.2 = s0) ∨
    (s0 < bs.2 ∧ bs.1 ∈ seen ∧ scoreAfter p st bs.1 = bs.2 ∧
      ∀ x ∈ seen, scoreAfter p st x = bs.2 → bs.1.turns.length ≤ x.turns.length))

/-- A well-formed entry of the dedup table relative to the inputs processed so
far: the value carries the entry's key as its face map, is one of the
processed inputs, and has minimal turn count among processed inputs sharing
that face map. -/
def fdGood (seen : List MetaMove) (e : FaceMap × MetaMove) : Prop :=
  e.2.face_map = e.1 ∧ e.2 ∈ seen ∧
    ∀ y ∈ seen, y.face_map = e.1 → e.2.turns.length ≤ y.turns.length

/-! ### Concrete instances used by witnesses and counterexamples -/

/-- A two-piece puzzle with a single swap turn. -/
def P2 : TwistyPuzzle := { initial_state := [0, 1], turns := [[1, 0]] }

/-- A four-piece puzzle whose two turns displace different numbers of pieces:
turn 0 swaps both pairs (4 pieces), turn 1 swaps only the first pair
(2 pieces). -/
def P4 : TwistyPuzzle := { initial_state := [0, 1, 2, 3], turns := [[1, 0, 3, 2], [1, 0, 2, 3]] }

/-- The single-turn MetaMove of `P2`. -/
def mmSwap : MetaMove := MetaMove.new [0] [1, 0]

def solverP2Scrambled : MetaMoveSolver :=
  { puzzle := P2, state := [1, 0], phase := SolvePhase.Search, depth := 2,
    metamoves := [mmSwap], buffered_turns := [] }

def solverP2Solved : MetaMoveSolver :=
  { puzzle := P2, state := [0, 1], phase := SolvePhase.Search, depth := 2,
    metamoves := [mmSwap], buffered_turns := [] }

def solverP2SolvedMM : MetaMoveSolver :=
  { puzzle := P2, state := [0, 1], phase := SolvePhase.Metamoves, depth := 2,
    metamoves := [mmSwap], buffered_turns := [] }

def solverP2Buffered : MetaMoveSolver :=
  { puzzle := P2, state := [0, 1], phase := SolvePhase.Metamoves, depth := 2,
    metamoves := [mmSwap], buffered_turns := [0] }

/-- The result of pulling the one buffered turn of `solverP2Buffered`. -/
def solverP2BufferedStepped : MetaMoveSolver :=
  { puzzle := P2, state := [1, 0], phase := SolvePhase.Metamoves, depth := 2,
    metamoves := [mmSwap], buffered_turns := [] }

def solverDefault : MetaMoveSolver :=
  { puzzle := P2, state := [], phase := SolvePhase.Search, depth := 0,
    metamoves := [], buffered_turns := [] }

/-- The solver that `MetaMoveSolver::new` builds for `P2` from the solved
state. -/
def solverNewP2 : MetaMoveSolver :=
  (MetaMoveSolver.new P2 [0, 1]).getD solverDefault

/-- The metamove `[1, 0]` of `P4` visited by discovery: its net effect swaps
only the second pair, displacing 2 pieces. -/
def mmC4 : MetaMove := MetaMove.new_infer_face_map P4 [1, 0]

/-- `P4` with its two turns swapped: turn 0 displaces 2 pieces, turn 1
displaces 4. -/
def P4R : TwistyPuzzle :=
  { initial_state := [0, 1, 2, 3], turns := [[1, 0, 2, 3], [1, 0, 3, 2]] }

/-- The single-turn combination `[0]` of `P4R`, displacing 2 pieces. -/
def mmSmall : MetaMove := MetaMove.new_infer_face_map P4R [0]

/-- Input list exercising `filter_duplicates`: two MetaMoves share the identity
effect, a third has a distinct effect. -/
def lC5 : List MetaMove :=
  [MetaMove.new [0, 0] [0, 1], MetaMove.new [1] [0, 1], MetaMove.new [0] [1, 0]]

/-! ### Basic lemmas about states, scores and face maps -/

theorem get_num_solved_pieces_le (p : TwistyPuzzle) (st : PuzzleState) :
    p.get_num_solved_pieces st ≤ p.get_num_pieces := by
  unfold TwistyPuzzle.get_num_solved_pieces TwistyPuzzle.get_num_pieces
  calc (st.zip p.initial_state).countP (fun ab => decide (ab.1 = ab.2))
      ≤ (st.zip p.initial_state).length := List.countP_le_length _
    _ ≤ p.initial_state.length := by
        rw [List.length_zip]
        exact min_le_right _ _

theorem scoreAfter_le (p : TwistyPuzzle) (st : PuzzleState) (x : MetaMove) :
    scoreAfter p st x ≤ p.get_num_pieces :=
  get_num_solved_pieces_le p _

theorem map_getD_range (l : List Nat) :
    (List.range l.length).map (fun i => l.getD i 0) = l := by
  apply List.ext_getElem
  · simp
  · intro n h1 h2
    simp only [List.getElem_map, List.getElem_range]
    rw [List.getD_eq_getElem]

theorem countAffected_eq_zero {fm : FaceMap} (h : countAffected fm = 0) :
    ∀ i < fm.length, fm.getD i 0 = i := by
  intro i hi
  unfold countAffected at h
  rw [List.countP_eq_zero] at h
  have := h i (List.mem_range.2 hi)
  simpa using this

theorem empty_num_affected (p : TwistyPuzzle) :
    (MetaMove.empty p).num_affected_pieces = 0 := by
  show countAffected (identityFaceMap p.get_num_pieces) = 0
  unfold countAffected identityFaceMap
  rw [List.countP_eq_zero]
  intro i hi
  rw [List.length_range] at hi
  rw [List.mem_range] at hi
  simp only [decide_eq_true_eq, Decidable.not_not]
  rw [List.getD_eq_getElem _ _ (by simpa using hi)]
  simp

theorem empty_turns (p : TwistyPuzzle) : (MetaMove.empty p).turns = [] := rfl

theorem identity_faceMap_eq {fm : FaceMap} (h0 : countAffected fm = 0) :
    fm = List.range fm.length := by
  apply List.ext_getElem
  · simp
  · intro n h1 h2
    rw [List.getElem_range]
    rw [← List.getD_eq_getElem fm 0 h1]
    exact countAffected_eq_zero h0 n h1

theorem derived_state_of_identity (p : TwistyPuzzle) (st : PuzzleState) {fm : FaceMap}
    (h0 : countAffected fm = 0) (hlen : fm.length = st.length) :
    p.get_derived_state st fm = st := by
  unfold TwistyPuzzle.get_derived_state
  rw [identity_faceMap_eq h0, hlen]
  exact map_getD_range st

/-- A MetaMove whose cached displaced-piece count is zero and whose face map
spans the whole state leaves the score unchanged. -/
theorem scoreAfter_of_num_affected_zero (p : TwistyPuzzle) (st : PuzzleState)
    {x : MetaMove} (h0 : countAffected x.face_map = 0)
    (hlen : x.face_map.length = st.length) :
    scoreAfter p st x = p.get_num_solved_pieces st := by
  unfold scoreAfter
  rw [derived_state_of_identity p st h0 hlen]

/-! ### Generic lemmas about the combination traversal -/

theorem mem_visitedNodes {α : Type} (pool : List α) (combine : α → α → α) :
    ∀ (d : Nat) (acc x : _),
      x ∈ visitedNodes pool combine d acc ↔
        ∃ l, l ≠ [] ∧ l.length ≤ d ∧ (∀ c ∈ l, c ∈ pool) ∧
          x = l.foldl combine acc := by
  intro d
  induction d with
  | zero =>
    intro acc x
    simp only [visitedNodes, List.not_mem_nil, false_iff]
    rintro ⟨l, hne, hlen, -, -⟩
    exact hne (List.eq_nil_of_length_eq_zero (Nat.le_zero.1 hlen))
  | succ d ih =>
    intro acc x
    rw [visitedNodes]
    rw [List.mem_flatMap]
    constructor
    · rintro ⟨c, hc, hx⟩
      rcases List.mem_cons.1 hx with hx | hx
      · exact ⟨[c], by simp, by simp, by simpa using hc, by simpa using hx⟩
      · rcases (ih (combine acc c) x).1 hx with ⟨l, hne, hlen, hmem, hfold⟩
        refine ⟨c :: l, by simp, by simpa using hlen, ?_, by simpa using hfold⟩
        intro u hu
        rcases List.mem_cons.1 hu with h | h
        · exact h ▸ hc
        · exact hmem u h
    · rintro ⟨l, hne, hlen, hmem, hfold⟩
      rcases l with _ | ⟨c, l⟩
      · exact absurd rfl hne
      · refine ⟨c, hmem c (List.mem_cons_self c l), ?_⟩
        rcases l with _ | ⟨c2, l2⟩
        · exact List.mem_cons.2 (Or.inl (by simpa using hfold))
        · refine List.mem_cons.2 (Or.inr ((ih (combine acc c) x).2
            ⟨c2 :: l2, by simp, by simpa using hlen, ?_, by simpa using hfold⟩))
          intro u hu
          exact hmem u (List.mem_cons.2 (Or.inr hu))

theorem visitedNodes_apply_shape (pool : List MetaMove) :
    ∀ (d : Nat) (acc x : _), x ∈ visitedNodes pool MetaMove.apply d acc →
      ∃ a c, c ∈ pool ∧ x = MetaMove.apply a c := by
  intro d
  induction d with
  | zero => intro acc x hx; simp [visitedNodes] at hx
  | succ d ih =>
    intro acc x hx
    rw [visitedNodes, List.mem_flatMap] at hx
    rcases hx with ⟨c, hc, hx⟩
    rcases List.mem_cons.1 hx with hx | hx
    · exact ⟨acc, c, hc, hx⟩
    · exact ih _ x hx

theorem visitedNodes_turns_ne_nil {pool : List MetaMove}
    (hpool : ∀ c ∈ pool, c.turns ≠ []) {d : Nat} {acc x : MetaMove}
    (hx : x ∈ visitedNodes pool MetaMove.apply d acc) : x.turns ≠ [] := by
  rcases visitedNodes_apply_shape pool d acc x hx with ⟨a, c, hc, rfl⟩
  show a.turns ++ c.turns ≠ []
  simp only [ne_eq, List.append_eq_nil]
  rintro ⟨-, h⟩
  exact hpool c hc h

theorem visitedNodes_num_affected {pool : List MetaMove} {d : Nat} {acc x : MetaMove}
    (hx : x ∈ visitedNodes pool MetaMove.apply d acc) :
    x.num_affected_pieces = countAffected x.face_map := by
  rcases visitedNodes_apply_shape pool d acc x hx with ⟨a, c, -, rfl⟩
  rfl

theorem visitedNodes_face_len {pool : List MetaMove} {n : Nat}
    (hpool : ∀ c ∈ pool, c.face_map.length = n) {d : Nat} {acc x : MetaMove}
    (hx : x ∈ visitedNodes pool MetaMove.apply d acc) : x.face_map.length = n := by
  rcases visitedNodes_apply_shape pool d acc x hx with ⟨a, c, hc, rfl⟩
  show (composeFaceMap a.face_map c.face_map).length = n
  unfold composeFaceMap
  rw [List.length_map]
  exact hpool c hc

/-! ### The traversal as a linear scan over its visitation list -/

theorem scanBreak_append {α σ : Type} (step : σ → α → σ) (brk : α → Bool) :
    ∀ (l1 l2 : List α) (s : σ),
      scanBreak step brk s (l1 ++ l2) =
        match scanBreak step brk s l1 with
        | (s1, TraverseResult.Break) => (s1, TraverseResult.Break)
        | (s1, TraverseResult.Continue) => scanBreak step brk s1 l2 := by
  intro l1
  induction l1 with
  | nil => intro l2 s; rfl
  | cons a l1 ih =>
    intro l2 s
    by_cases h : brk a = true
    · simp [scanBreak, h]
    · simp only [List.cons_append, scanBreak, h, Bool.false_eq_true, if_false, if_neg]
      exact ih l2 (step s a)

theorem sibs_scan {α σ : Type} (combine : α → α → α) (step : σ → α → σ) (brk : α → Bool)
    (child : α → σ → σ × TraverseResult) (childE : α → List α)
    (hch : ∀ acc s, child acc s = scanBreak step brk s (childE acc)) :
    ∀ (cs : List α) (acc : α) (s : σ),
      travSibs combine (fun s a => (step s a, if brk a then TraverseResult.Break
          else TraverseResult.Continue)) child cs acc s
        = scanBreak step brk s
            (cs.flatMap (fun c => combine acc c :: childE (combine acc c))) := by
  intro cs
  induction cs with
  | nil => intro acc s; rfl
  | cons c cs ih =>
    intro acc s
    rw [travSibs]
    rw [List.flatMap_cons, List.cons_append]
    by_cases h : brk (combine acc c) = true
    · simp [scanBreak, h]
    · simp only [scanBreak, h, Bool.false_eq_true, if_false]
      rw [hch]
      rw [scanBreak_append]
      rcases hrun : scanBreak step brk (step s (combine acc c)) (childE (combine acc c))
        with ⟨s2, r2⟩
      cases r2 with
      | Break => rfl
      | Continue => exact ih acc s2

theorem nodes_scan {α σ : Type} (pool : List α) (combine : α → α → α) (step : σ → α → σ)
    (brk : α → Bool) :
    ∀ (fuel : Nat) (acc : α) (s : σ),
      travNodes pool combine (fun s a => (step s a, if brk a then TraverseResult.Break
          else TraverseResult.Continue)) fuel acc s
        = scanBreak step brk s (visitedNodes pool combine fuel acc) := by
  intro fuel
  induction fuel with
  | zero => intro acc s; rfl
  | succ f ih =>
    intro acc s
    rw [travNodes, visitedNodes]
    exact sibs_scan combine step brk _ _ (fun acc s => ih acc s) pool acc s

theorem scanBreak_no_brk {α σ : Type} (step : σ → α → σ) :
    ∀ (l : List α) (s : σ),
      scanBreak step (fun _ => false) s l = (List.foldl step s l, TraverseResult.Continue) := by
  intro l
  induction l with
  | nil => intro s; rfl
  | cons a l ih => intro s; simpa [scanBreak] using ih (step s a)

/-! ### The two concrete visitors in scan shape -/

theorem fbVisit_shape (p : TwistyPuzzle) (st : PuzzleState) :
    fbVisit p st = fun bs mm =>
      (fbStep p st bs mm,
       if fbBrk p st mm then TraverseResult.Break else TraverseResult.Continue) := by
  funext bs mm
  unfold fbVisit fbStep fbBrk
  by_cases h : scoreAfter p st mm = p.get_num_pieces <;> simp [h]

theorem searchVisit_shape (p : TwistyPuzzle) (st : PuzzleState) :
    searchVisit p st = fun bs mm =>
      (searchStep p st bs mm,
       if (fun _ : MetaMove => false) mm then TraverseResult.Break
       else TraverseResult.Continue) := by
  funext bs mm
  simp [searchVisit]

theorem loggedFbVisit_shape (p : TwistyPuzzle) (st : PuzzleState) :
    loggedVisit (fbVisit p st) = fun sl mm =>
      (fbLogStep p st sl mm,
       if fbBrk p st mm then TraverseResult.Break else TraverseResult.Continue) := by
  funext sl mm
  unfold loggedVisit fbLogStep
  rw [fbVisit_shape]

theorem find_best_run_eq (p : TwistyPuzzle) (st : PuzzleState)
    (metamoves : List MetaMove) (depth : Nat) :
    traverse_combinations metamoves depth (MetaMove.empty p) MetaMove.apply
        (fbVisit p st) (MetaMove.empty p, p.get_num_solved_pieces st)
      = scanBreak (fbStep p st) (fbBrk p st)
          (MetaMove.empty p, p.get_num_solved_pieces st)
          (visitedNodes metamoves MetaMove.apply depth (MetaMove.empty p)) := by
  unfold traverse_combinations
  rw [fbVisit_shape]
  exact nodes_scan metamoves MetaMove.apply (fbStep p st) (fbBrk p st) depth _ _

theorem find_best_log_eq (p : TwistyPuzzle) (st : PuzzleState)
    (metamoves : List MetaMove) (depth : Nat) :
    find_best_metamove_log p st metamoves depth
      = scanBreak (fbLogStep p st) (fbBrk p st)
          ((MetaMove.empty p, p.get_num_solved_pieces st), [])
          (visitedNodes metamoves MetaMove.apply depth (MetaMove.empty p)) := by
  unfold find_best_metamove_log traverse_combinations
  rw [loggedFbVisit_shape]
  exact nodes_scan metamoves MetaMove.apply (fbLogStep p st) (fbBrk p st) depth _ _

theorem searchRun_eq_foldl (p : TwistyPuzzle) (st : PuzzleState) (bs : MetaMove × Nat)
    (depth : Nat) :
    searchRun p st bs depth
      = List.foldl (searchStep p st) bs
          (visitedNodes (individual_turns_metamoves p) MetaMove.apply depth
            (MetaMove.empty p)) := by
  unfold searchRun traverse_combinations
  rw [searchVisit_shape,
    nodes_scan (individual_turns_metamoves p) MetaMove.apply (searchStep p st)
      (fun _ => false) depth _ _,
    scanBreak_no_brk]

/-! ### Invariants of the `find_best_metamove` scan -/

theorem fbStep_le (p : TwistyPuzzle) (st : PuzzleState) (bs : MetaMove × Nat)
    (v : MetaMove) : bs.2 ≤ (fbStep p st bs v).2 := by
  unfold fbStep
  by_cases hu : bs.2 < scoreAfter p st v
  · rw [if_pos hu]
    exact le_of_lt hu
  · rw [if_neg hu]

theorem fbStep_lt (p : TwistyPuzzle) (st : PuzzleState) (bs : MetaMove × Nat)
    {v : MetaMove} (hvlt : scoreAfter p st v < p.get_num_pieces)
    (hn : bs.2 < p.get_num_pieces) : (fbStep p st bs v).2 < p.get_num_pieces := by
  unfold fbStep
  by_cases hu : bs.2 < scoreAfter p st v
  · rw [if_pos hu]
    exact hvlt
  · rw [if_neg hu]
    exact hn

theorem scan_fbok (p : TwistyPuzzle) (st : PuzzleState) :
    ∀ (E : List MetaMove) (bs : MetaMove × Nat),
      FBOK p st E bs (scanBreak (fbStep p st) (fbBrk p st) bs E) := by
  intro E
  induction E with
  | nil =>
    intro bs
    refine ⟨le_refl _, Or.inl ⟨rfl, rfl⟩, fun _ => rfl, ?_, ?_⟩
    · rintro - ⟨x, hx, -⟩
      simp at hx
    · intro h
      exact ⟨fun hbr => by simp [scanBreak] at hbr, fun _ => h⟩
  | cons v E ih =>
    intro bs
    by_cases hbk : fbBrk p st v = true
    · have hsol : scoreAfter p st v = p.get_num_pieces := of_decide_eq_true hbk
      simp only [scanBreak, hbk, if_true]
      by_cases hupd : bs.2 < scoreAfter p st v
      · have hstep : fbStep p st bs v = (v, scoreAfter p st v) := if_pos hupd
        rw [hstep]
        exact ⟨le_of_lt hupd,
          Or.inr ⟨List.mem_cons_self v E, rfl, hupd⟩,
          fun hall => absurd hupd (not_lt.2 (hall v (List.mem_cons_self v E))),
          fun _ _ => hupd,
          fun _ => ⟨fun _ => hsol, fun hco => by simp at hco⟩⟩
      · have hstep : fbStep p st bs v = bs := if_neg hupd
        rw [hstep]
        have hnn : ¬ bs.2 < p.get_num_pieces := fun hn => hupd (hsol ▸ hn)
        exact ⟨le_refl _, Or.inl ⟨rfl, rfl⟩, fun _ => rfl,
          fun hn => absurd hn hnn, fun hn => absurd hn hnn⟩
    · have hnsol : ¬ scoreAfter p st v = p.get_num_pieces := by
        simpa [fbBrk] using hbk
      have hvlt : scoreAfter p st v < p.get_num_pieces :=
        lt_of_le_of_ne (scoreAfter_le p st v) hnsol
      simp only [scanBreak, hbk, Bool.false_eq_true, if_false]
      obtain ⟨h1, h2, h3, h4, h5⟩ := ih (fbStep p st bs v)
      have hble := fbStep_le p st bs v
      refine ⟨le_trans hble h1, ?_, ?_, ?_, ?_⟩
      · rcases h2 with ⟨he1, he2⟩ | ⟨hm, hs, hl⟩
        · by_cases hu : bs.2 < scoreAfter p st v
          · have hstep : fbStep p st bs v = (v, scoreAfter p st v) := if_pos hu
            rw [hstep] at he1 he2 ⊢
            refine Or.inr ⟨?_, ?_, ?_⟩
            · rw [he1]
              exact List.mem_cons_self v E
            · rw [he1, he2]
            · rw [he2]
              exact hu
          · have hstep : fbStep p st bs v = bs := if_neg hu
            rw [hstep] at he1 he2 ⊢
            exact Or.inl ⟨he1, he2⟩
        · exact Or.inr ⟨List.mem_cons_of_mem v hm, hs, lt_of_le_of_lt hble hl⟩
      · intro hall
        have hv_le := hall v (List.mem_cons_self v E)
        have hstep : fbStep p st bs v = bs := if_neg (not_lt.2 hv_le)
        rw [hstep] at h3 ⊢
        exact h3 (fun x hx => hall x (List.mem_cons_of_mem v hx))
      · rintro hn ⟨x, hx, hgt⟩
        rcases List.mem_cons.1 hx with rfl | hx
        · have hstep : fbStep p st bs x = (x, scoreAfter p st x) := if_pos hgt
          calc bs.2 < scoreAfter p st x := hgt
            _ = (fbStep p st bs x).2 := by rw [hstep]
            _ ≤ _ := h1
        · by_cases hu : bs.2 < scoreAfter p st v
          · have hstep : fbStep p st bs v = (v, scoreAfter p st v) := if_pos hu
            calc bs.2 < scoreAfter p st v := hu
              _ = (fbStep p st bs v).2 := by rw [hstep]
              _ ≤ _ := h1
          · have hstep : fbStep p st bs v = bs := if_neg hu
            rw [hstep] at h4 ⊢
            exact h4 hn ⟨x, hx, hgt⟩
      · intro hn
        exact h5 (fbStep_lt p st bs hvlt hn)

theorem scan_fblog (p : TwistyPuzzle) (st : PuzzleState) :
    ∀ (E : List MetaMove) (inp : (MetaMove × Nat) × List MetaMove),
      FBLogOK p st inp (scanBreak (fbLogStep p st) (fbBrk p st) inp E) := by
  intro E
  induction E with
  | nil =>
    intro inp
    refine ⟨[], by simp [scanBreak], ?_, ?_⟩
    · intro _
      exact ⟨fun v hv => by simp at hv, fun h => h⟩
    · intro hbr
      simp [scanBreak] at hbr
  | cons v E ih =>
    intro inp
    by_cases hbk : fbBrk p st v = true
    · have hsol : scoreAfter p st v = p.get_num_pieces := of_decide_eq_true hbk
      simp only [scanBreak, hbk, if_true]
      refine ⟨[v], rfl, ?_, ?_⟩
      · intro hco
        simp at hco
      · intro _
        refine ⟨[], v, by simp, by simp, hsol, ?_⟩
        intro hn
        have hupd : inp.1.2 < scoreAfter p st v := hsol ▸ hn
        have hstep : fbStep p st inp.1 v = (v, scoreAfter p st v) := if_pos hupd
        constructor
        · show (fbStep p st inp.1 v).1 = v
          rw [hstep]
        · show (fbStep p st inp.1 v).2 = p.get_num_pieces
          rw [hstep]
          exact hsol
    · have hnsol : ¬ scoreAfter p st v = p.get_num_pieces := by
        simpa [fbBrk] using hbk
      have hvlt : scoreAfter p st v < p.get_num_pieces :=
        lt_of_le_of_ne (scoreAfter_le p st v) hnsol
      simp only [scanBreak, hbk, Bool.false_eq_true, if_false]
      obtain ⟨reg1, hlog, hcont, hbrk⟩ := ih (fbLogStep p st inp v)
      have hin : (fbLogStep p st inp v).2 = inp.2 ++ [v] := rfl
      have hinlt : inp.1.2 < p.get_num_pieces →
          (fbLogStep p st inp v).1.2 < p.get_num_pieces :=
        fun hn => fbStep_lt p st inp.1 hvlt hn
      refine ⟨v :: reg1, ?_, ?_, ?_⟩
      · rw [hlog, hin]
        simp
      · intro hco
        obtain ⟨hnone, hsc⟩ := hcont hco
        refine ⟨?_, fun hn => hsc (hinlt hn)⟩
        intro u hu
        rcases List.mem_cons.1 hu with rfl | hu
        · exact hnsol
        · exact hnone u hu
      · intro hbr
        obtain ⟨reg0, w, hre, hreg0, hw, hbest⟩ := hbrk hbr
        refine ⟨v :: reg0, w, by rw [hre]; simp, ?_, hw, fun hn => hbest (hinlt hn)⟩
        intro u hu
        rcases List.mem_cons.1 hu with rfl | hu
        · exact hnsol
        · exact hreg0 u hu

theorem scan_log_proj (p : TwistyPuzzle) (st : PuzzleState) :
    ∀ (E : List MetaMove) (s : MetaMove × Nat) (log : List MetaMove),
      ((scanBreak (fbLogStep p st) (fbBrk p st) (s, log) E).1.1,
       (scanBreak (fbLogStep p st) (fbBrk p st) (s, log) E).2)
        = scanBreak (fbStep p st) (fbBrk p st) s E := by
  intro E
  induction E with
  | nil => intro s log; rfl
  | cons v E ih =>
    intro s log
    by_cases hbk : fbBrk p st v = true
    · simp [scanBreak, hbk, fbLogStep]
    · simp only [scanBreak, hbk, Bool.false_eq_true, if_false]
      exact ih (fbStep p st s v) (log ++ [v])

/-! ### Invariants of the Search-phase selection fold -/

theorem searchFold_inv (p : TwistyPuzzle) (st : PuzzleState) (s0 : Nat) :
    ∀ (l seen : List MetaMove) (bs : MetaMove × Nat),
      SInvP p st s0 seen bs →
      SInvP p st s0 (seen ++ l) (List.foldl (searchStep p st) bs l) := by
  intro l
  induction l with
  | nil =>
    intro seen bs h
    simpa using h
  | cons mm l ih =>
    intro seen bs h
    have hstep : SInvP p st s0 (seen ++ [mm]) (searchStep p st bs mm) := by
      obtain ⟨h1, h2⟩ := h
      unfold searchStep
      by_cases hc : bs.2 < scoreAfter p st mm ∨
          (scoreAfter p st mm = bs.2 ∧ mm.turns.length < bs.1.turns.length)
      · rw [if_pos hc]
        rcases hc with hlt | ⟨heq, hlen⟩
        · refine ⟨?_, Or.inr ⟨?_, ?_, rfl, ?_⟩⟩
          · intro x hx
            rcases List.mem_append.1 hx with hx | hx
            · exact le_trans (h1 x hx) (le_of_lt hlt)
            · rw [List.mem_singleton.1 hx]
          · rcases h2 with ⟨-, hb2⟩ | ⟨hgt, -, -, -⟩
            · exact hb2 ▸ hlt
            · exact lt_trans hgt hlt
          · exact List.mem_append_right seen (List.mem_singleton.2 rfl)
          · intro x hx hsc
            rcases List.mem_append.1 hx with hx | hx
            · exact absurd hsc (ne_of_lt (lt_of_le_of_lt (h1 x hx) hlt))
            · rw [List.mem_singleton.1 hx]
        · rcases h2 with ⟨hb1, -⟩ | ⟨hgt, hmem, hsc, hties⟩
          · exfalso
            rw [hb1] at hlen
            simp [MetaMove.empty, MetaMove.new] at hlen
          · refine ⟨?_, Or.inr ⟨heq ▸ hgt, ?_, rfl, ?_⟩⟩
            · intro x hx
              rcases List.mem_append.1 hx with hx | hx
              · exact le_of_le_of_eq (h1 x hx) heq.symm
              · rw [List.mem_singleton.1 hx]
            · exact List.mem_append_right seen (List.mem_singleton.2 rfl)
            · intro x hx hsc
              rcases List.mem_append.1 hx with hx | hx
              · exact le_of_lt (lt_of_lt_of_le hlen (hties x hx (hsc.symm ▸ heq ▸ rfl)))
              · rw [List.mem_singleton.1 hx]
      · rw [if_neg hc]
        have hc1 : scoreAfter p st mm ≤ bs.2 := not_lt.1 (fun h => hc (Or.inl h))
        have hc2 : scoreAfter p st mm = bs.2 → bs.1.turns.length ≤ mm.turns.length :=
          fun heq => not_lt.1 (fun h => hc (Or.inr ⟨heq, h⟩))
        refine ⟨?_, ?_⟩
        · intro x hx
          rcases List.mem_append.1 hx with hx | hx
          · exact h1 x hx
          · rw [List.mem_singleton.1 hx]
            exact hc1
        · rcases h2 with hleft | ⟨hgt, hmem, hsc, hties⟩
          · exact Or.inl hleft
          · refine Or.inr ⟨hgt, List.mem_append_left _ hmem, hsc, ?_⟩
            intro x hx hxs
            rcases List.mem_append.1 hx with hx | hx
            · exact hties x hx hxs
            · rw [List.mem_singleton.1 hx] at hxs ⊢
              exact hc2 hxs
    have := ih (seen ++ [mm]) (searchStep p st bs mm) hstep
    simpa [List.append_assoc] using this

theorem searchRun_inv (p : TwistyPuzzle) (st : PuzzleState) (s0 : Nat) (d : Nat) :
    SInvP p st s0
      (visitedNodes (individual_turns_metamoves p) MetaMove.apply d (MetaMove.empty p))
      (searchRun p st (MetaMove.empty p, s0) d) := by
  rw [searchRun_eq_foldl]
  have hbase : SInvP p st s0 [] (MetaMove.empty p, s0) :=
    ⟨fun x hx => absurd hx (List.not_mem_nil x), Or.inl ⟨rfl, rfl⟩⟩
  simpa using searchFold_inv p st s0 _ [] _ hbase

theorem searchRun_no_improve (p : TwistyPuzzle) (st : PuzzleState) (s0 : Nat) (d : Nat)
    (h : ∀ x ∈ visitedNodes (individual_turns_metamoves p) MetaMove.apply d
        (MetaMove.empty p), scoreAfter p st x ≤ s0) :
    searchRun p st (MetaMove.empty p, s0) d = (MetaMove.empty p, s0) := by
  obtain ⟨h1, h2⟩ := searchRun_inv p st s0 d
  rcases h2 with ⟨hb1, hb2⟩ | ⟨hgt, hmem, hsc, -⟩
  · exact Prod.ext_iff.2 ⟨hb1, hb2⟩
  · exact absurd (hsc ▸ h _ hmem) (not_le.2 hgt)

theorem searchRun_improve (p : TwistyPuzzle) (st : PuzzleState) (s0 : Nat) (d : Nat)
    (himp : ∃ x ∈ visitedNodes (individual_turns_metamoves p) MetaMove.apply d
        (MetaMove.empty p), s0 < scoreAfter p st x) :
    (searchRun p st (MetaMove.empty p, s0) d).1
        ∈ visitedNodes (individual_turns_metamoves p) MetaMove.apply d (MetaMove.empty p) ∧
      s0 < (searchRun p st (MetaMove.empty p, s0) d).2 ∧
      scoreAfter p st (searchRun p st (MetaMove.empty p, s0) d).1
        = (searchRun p st (MetaMove.empty p, s0) d).2 ∧
      (∀ x ∈ visitedNodes (individual_turns_metamoves p) MetaMove.apply d
          (MetaMove.empty p),
        scoreAfter p st x ≤ (searchRun p st (MetaMove.empty p, s0) d).2) ∧
      (∀ x ∈ visitedNodes (individual_turns_metamoves p) MetaMove.apply d
          (MetaMove.empty p),
        scoreAfter p st x = (searchRun p st (MetaMove.empty p, s0) d).2 →
          (searchRun p st (MetaMove.empty p, s0) d).1.turns.length ≤ x.turns.length) := by
  obtain ⟨h1, h2⟩ := searchRun_inv p st s0 d
  rcases h2 with ⟨-, hb2⟩ | ⟨hgt, hmem, hsc, hties⟩
  · exfalso
    obtain ⟨x, hx, hxgt⟩ := himp
    have hle := h1 x hx
    rw [hb2] at hle
    exact absurd hle (not_le.2 hxgt)
  · exact ⟨hmem, hgt, hsc, h1, hties⟩

/-! ### Helper lemmas about the solver's components -/

theorem visitedNodes_mono {α : Type} (pool : List α) (combine : α → α → α)
    {d d' : Nat} (hdd : d ≤ d') :
    ∀ (acc x : _), x ∈ visitedNodes pool combine d acc →
      x ∈ visitedNodes pool combine d' acc := by
  intro acc x hx
  rw [mem_visitedNodes] at hx ⊢
  obtain ⟨l, h1, h2, h3, h4⟩ := hx
  exact ⟨l, h1, le_trans h2 hdd, h3, h4⟩

theorem pool_turns_ne_nil (p : TwistyPuzzle) :
    ∀ c ∈ individual_turns_metamoves p, c.turns ≠ [] := by
  intro c hc
  rcases List.mem_map.1 hc with ⟨i, -, rfl⟩
  simp [turnMetaMove, MetaMove.new]

theorem pool_face_len (p : TwistyPuzzle) (hwf : p.WF) :
    ∀ c ∈ individual_turns_metamoves p, c.face_map.length = p.get_num_pieces := by
  intro c hc
  rcases List.mem_map.1 hc with ⟨i, hi, rfl⟩
  rw [List.mem_range] at hi
  show (p.turns.getD i (identityFaceMap p.get_num_pieces)).length = _
  rw [List.getD_eq_getElem _ _ hi]
  exact (hwf _ (List.getElem_mem hi)).1

theorem improving_num_affected (p : TwistyPuzzle) (st : PuzzleState) (hwf : p.WF)
    (hlen : st.length = p.get_num_pieces) {d : Nat} {x : MetaMove}
    (hx : x ∈ visitedNodes (individual_turns_metamoves p) MetaMove.apply d
      (MetaMove.empty p))
    (himp : p.get_num_solved_pieces st < scoreAfter p st x) :
    x.num_affected_pieces ≠ 0 := by
  intro h0
  have hna := visitedNodes_num_affected hx
  rw [h0] at hna
  have hfl : x.face_map.length = p.get_num_pieces :=
    visitedNodes_face_len (pool_face_len p hwf) hx
  have heq := scoreAfter_of_num_affected_zero p st hna.symm (hfl.trans hlen.symm)
  rw [heq] at himp
  exact lt_irrefl _ himp

theorem next_of_buffered (s : MetaMoveSolver) (t : Nat) (rest : List Nat)
    (h : s.buffered_turns = t :: rest) :
    s.next = (some t,
      { s with state := s.puzzle.get_derived_state_turn_index s.state t,
               buffered_turns := rest }) := by
  unfold MetaMoveSolver.next
  rw [h]

theorem next_of_empty_search (s : MetaMoveSolver) (hbuf : s.buffered_turns = [])
    (hph : s.phase = SolvePhase.Search) :
    s.next = (match searchAttempt s with
      | SearchOutcome.found t s1 => (some t, s1)
      | SearchOutcome.earlyNone => (none, s)
      | SearchOutcome.noneFound => metamovePull { s with phase := SolvePhase.Metamoves }) := by
  unfold MetaMoveSolver.next
  rw [hbuf, hph, if_pos rfl]

theorem next_of_empty_metamoves (s : MetaMoveSolver) (hbuf : s.buffered_turns = [])
    (hph : s.phase = SolvePhase.Metamoves) :
    s.next = metamovePull s := by
  unfold MetaMoveSolver.next
  rw [hbuf, hph, if_neg (by simp)]

theorem metamovePull_of_nil (s : MetaMoveSolver)
    (h : (find_best_metamove s.puzzle s.state s.metamoves s.depth).turns = []) :
    metamovePull s = (none, s) := by
  unfold metamovePull
  rw [h]

theorem metamovePull_of_cons (s : MetaMoveSolver) (t : Nat) (rest : List Nat)
    (h : (find_best_metamove s.puzzle s.state s.metamoves s.depth).turns = t :: rest) :
    metamovePull s = (some t,
      { s with state := s.puzzle.get_derived_state_turn_index s.state t,
               buffered_turns := if 1 < (t :: rest).length then rest
                 else s.buffered_turns }) := by
  unfold metamovePull
  rw [h]

theorem searchAttempt_no_improve (s : MetaMoveSolver)
    (h : ∀ x ∈ visitedNodes (individual_turns_metamoves s.puzzle) MetaMove.apply 5
        (MetaMove.empty s.puzzle),
      scoreAfter s.puzzle s.state x ≤ s.puzzle.get_num_solved_pieces s.state) :
    searchAttempt s = SearchOutcome.noneFound := by
  have h4 : ∀ x ∈ visitedNodes (individual_turns_metamoves s.puzzle) MetaMove.apply 4
      (MetaMove.empty s.puzzle),
      scoreAfter s.puzzle s.state x ≤ s.puzzle.get_num_solved_pieces s.state :=
    fun x hx => h x (visitedNodes_mono _ _ (by omega) _ x hx)
  have e4 := searchRun_no_improve s.puzzle s.state
    (s.puzzle.get_num_solved_pieces s.state) 4 h4
  have e5 := searchRun_no_improve s.puzzle s.state
    (s.puzzle.get_num_solved_pieces s.state) 5 h
  simp only [searchAttempt]
  rw [e4]
  simp only [empty_num_affected, ne_eq, not_true_eq_false, if_false]
  rw [e5]
  simp [empty_num_affected]

/-- The `find_best_metamove` result together with its final score, as a scan. -/
theorem find_best_fbok (p : TwistyPuzzle) (st : PuzzleState)
    (metamoves : List MetaMove) (depth : Nat) :
    FBOK p st (visitedNodes metamoves MetaMove.apply depth (MetaMove.empty p))
      (MetaMove.empty p, p.get_num_solved_pieces st)
      (traverse_combinations metamoves depth (MetaMove.empty p) MetaMove.apply
        (fbVisit p st) (MetaMove.empty p, p.get_num_solved_pieces st)) := by
  rw [find_best_run_eq]
  exact scan_fbok p st _ _

theorem isCombo_iff_mem_visited (pool : List MetaMove) (p : TwistyPuzzle) (d : Nat)
    (x : MetaMove) :
    IsCombo pool p d x ↔ x ∈ visitedNodes pool MetaMove.apply d (MetaMove.empty p) := by
  unfold IsCombo
  exact (mem_visitedNodes pool MetaMove.apply d (MetaMove.empty p) x).symm

theorem find_best_no_improve (p : TwistyPuzzle) (st : PuzzleState)
    (metamoves : List MetaMove) (depth : Nat)
    (h : ∀ x ∈ visitedNodes metamoves MetaMove.apply depth (MetaMove.empty p),
      scoreAfter p st x ≤ p.get_num_solved_pieces st) :
    find_best_metamove p st metamoves depth = MetaMove.empty p := by
  obtain ⟨-, -, h3, -, -⟩ := find_best_fbok p st metamoves depth
  unfold find_best_metamove
  rw [h3 h]

theorem find_best_turns_nil_iff (p : TwistyPuzzle) (st : PuzzleState)
    (metamoves : List MetaMove) (depth : Nat)
    (hmm : ∀ mm ∈ metamoves, mm.turns ≠ []) :
    (find_best_metamove p st metamoves depth).turns = [] ↔
      ¬ ∃ x, x ∈ visitedNodes metamoves MetaMove.apply depth (MetaMove.empty p) ∧
        p.get_num_solved_pieces st < scoreAfter p st x := by
  obtain ⟨h1, h2, h3, h4, h5⟩ := find_best_fbok p st metamoves depth
  constructor
  · rintro hnil ⟨x, hx, himp⟩
    have hs0 : p.get_num_solved_pieces st < p.get_num_pieces :=
      lt_of_lt_of_le himp (scoreAfter_le p st x)
    have hgt := h4 hs0 ⟨x, hx, himp⟩
    rcases h2 with ⟨-, he2⟩ | ⟨hm, -, -⟩
    · rw [he2] at hgt
      exact lt_irrefl _ hgt
    · exact visitedNodes_turns_ne_nil hmm hm hnil
  · intro hno
    have hall : ∀ x ∈ visitedNodes metamoves MetaMove.apply depth (MetaMove.empty p),
        scoreAfter p st x ≤ p.get_num_solved_pieces st :=
      fun x hx => not_lt.1 (fun hgt => hno ⟨x, hx, hgt⟩)
    unfold find_best_metamove
    rw [h3 hall]
    rfl

theorem applyBest_found (s : MetaMoveSolver) {b : MetaMove} (t : Nat)
    (s1 : MetaMoveSolver) (h : applyBest s b = SearchOutcome.found t s1) :
    ∃ rest, b.turns = t :: rest ∧
      s1 = { s with state := s.puzzle.get_derived_state_turn_index s.state t,
                    buffered_turns := if 1 < (t :: rest).length then rest
                      else s.buffered_turns } := by
  unfold applyBest at h
  rcases hb : b.turns with _ | ⟨u, rest⟩ <;> rw [hb] at h
  · cases h
  · injection h with h1 h2
    subst h1
    exact ⟨rest, rfl, h2.symm⟩

theorem searchAttempt_found (s : MetaMoveSolver) (t : Nat) (s1 : MetaMoveSolver)
    (h : searchAttempt s = SearchOutcome.found t s1) :
    ∃ (b : MetaMove) (rest : List Nat), b.turns = t :: rest ∧
      s1 = { s with state := s.puzzle.get_derived_state_turn_index s.state t,
                    buffered_turns := if 1 < (t :: rest).length then rest
                      else s.buffered_turns } := by
  simp only [searchAttempt] at h
  split at h
  · obtain ⟨rest, hb, hs1⟩ := applyBest_found s t s1 h
    exact ⟨_, rest, hb, hs1⟩
  · split at h
    · obtain ⟨rest, hb, hs1⟩ := applyBest_found s t s1 h
      exact ⟨_, rest, hb, hs1⟩
    · cases h

/-! ### The claims -/

/-- C1: whenever a pull (`Iterator::next`) returns `some t`, the solver's
puzzle state after the call equals the state before the call with the single
turn `t` applied via `get_derived_state_turn_index`, and `t` is the index of
that applied turn; this holds in every phase, including pulls served from the
buffered-turns queue. -/
theorem claim_C1_pull_applies_returned_turn (s : MetaMoveSolver) (t : Nat)
    (s' : MetaMoveSolver) (h : s.next = (some t, s')) :
    s'.state = s.puzzle.get_derived_state_turn_index s.state t := by
  rcases hbuf : s.buffered_turns with _ | ⟨u, rest⟩
  · cases hph : s.phase with
    | Search =>
      rw [next_of_empty_search s hbuf hph] at h
      cases hsa : searchAttempt s with
      | found u s1 =>
        rw [hsa] at h
        obtain ⟨b, rest, hb, hs1⟩ := searchAttempt_found s u s1 hsa
        injection h with h1 h2
        injection h1 with h1
        subst h1
        rw [← h2, hs1]
      | earlyNone =>
        rw [hsa] at h
        injection h with h1 h2
        cases h1
      | noneFound =>
        rw [hsa] at h
        rcases hT : (find_best_metamove s.puzzle s.state s.metamoves s.depth).turns
          with _ | ⟨u, rest⟩
        · rw [metamovePull_of_nil { s with phase := SolvePhase.Metamoves } hT] at h
          injection h with h1 h2
          cases h1
        · rw [metamovePull_of_cons { s with phase := SolvePhase.Metamoves } u rest hT] at h
          injection h with h1 h2
          injection h1 with h1
          subst h1
          rw [← h2]
    | Metamoves =>
      rw [next_of_empty_metamoves s hbuf hph] at h
      rcases hT : (find_best_metamove s.puzzle s.state s.metamoves s.depth).turns
        with _ | ⟨u, rest⟩
      · rw [metamovePull_of_nil s hT] at h
        injection h with h1 h2
        cases h1
      · rw [metamovePull_of_cons s u rest hT] at h
        injection h with h1 h2
        injection h1 with h1
        subst h1
        rw [← h2]
  · rw [next_of_buffered s u rest hbuf] at h
    injection h with h1 h2
    injection h1 with h1
    subst h1
    rw [← h2]

/-- Witness for C1 at a concrete solver with a buffered turn. -/
theorem claim_C1_witness :
    solverP2Buffered.next = (some 0, solverP2BufferedStepped) ∧
    solverP2BufferedStepped.state
      = solverP2Buffered.puzzle.get_derived_state_turn_index solverP2Buffered.state 0 :=
  ⟨by decide,
   claim_C1_pull_applies_returned_turn solverP2Buffered 0 solverP2BufferedStepped
     (by decide)⟩

/-- C7: with a non-empty buffer, a pull dequeues the front buffered turn,
applies it to the state and returns it, without running any search; the
phase, metamove library, search depth and the remaining buffered turns are
unchanged (expressed by the record update touching only `state` and
`buffered_turns`). -/
theorem claim_C7_buffered_pull (s : MetaMoveSolver) (t : Nat) (rest : List Nat)
    (h : s.buffered_turns = t :: rest) :
    s.next = (some t,
      { s with state := s.puzzle.get_derived_state_turn_index s.state t,
               buffered_turns := rest }) :=
  next_of_buffered s t rest h

/-- Witness for C7 at a concrete solver with a buffered turn. -/
theorem claim_C7_witness :
    solverP2Buffered.buffered_turns = 0 :: [] ∧
    solverP2Buffered.next = (some 0,
      { solverP2Buffered with
        state := solverP2Buffered.puzzle.get_derived_state_turn_index
          solverP2Buffered.state 0,
        buffered_turns := [] }) :=
  ⟨rfl, claim_C7_buffered_pull solverP2Buffered 0 [] rfl⟩

/-- C10: if the solver's current state is already fully solved and its buffer
is empty, the next pull returns `none` rather than yielding any turn, in both
the Search and the Metamoves phases. -/
theorem claim_C10_solved_pull_none (s : MetaMoveSolver)
    (hbuf : s.buffered_turns = [])
    (hsolved : s.puzzle.get_num_solved_pieces s.state = s.puzzle.get_num_pieces) :
    (s.next).1 = none := by
  have hall : ∀ (d : Nat) (mms : List MetaMove),
      ∀ x ∈ visitedNodes mms MetaMove.apply d (MetaMove.empty s.puzzle),
        scoreAfter s.puzzle s.state x ≤ s.puzzle.get_num_solved_pieces s.state := by
    intro d mms x hx
    rw [hsolved]
    exact scoreAfter_le _ _ _
  have hfb : find_best_metamove s.puzzle s.state s.metamoves s.depth
      = MetaMove.empty s.puzzle :=
    find_best_no_improve _ _ _ _ (hall s.depth s.metamoves)
  have hnil : (find_best_metamove s.puzzle s.state s.metamoves s.depth).turns = [] := by
    rw [hfb]
    rfl
  cases hph : s.phase with
  | Search =>
    rw [next_of_empty_search s hbuf hph,
      searchAttempt_no_improve s (hall 5 (individual_turns_metamoves s.puzzle))]
    show (metamovePull { s with phase := SolvePhase.Metamoves }).1 = none
    rw [metamovePull_of_nil { s with phase := SolvePhase.Metamoves } hnil]
  | Metamoves =>
    rw [next_of_empty_metamoves s hbuf hph, metamovePull_of_nil s hnil]

/-- Witness for C10 at a concrete solved solver in the Search phase. -/
theorem claim_C10_witness :
    solverP2Solved.buffered_turns = [] ∧
    solverP2Solved.puzzle.get_num_solved_pieces solverP2Solved.state
      = solverP2Solved.puzzle.get_num_pieces ∧
    (solverP2Solved.next).1 = none :=
  ⟨rfl, by decide, claim_C10_solved_pull_none solverP2Solved rfl (by decide)⟩

/-- C3: in the Metamoves phase with an empty buffer, a pull returns `none`
exactly when no combination of at most `depth` metamoves from the library
strictly improves the solved-piece score of the current state; exhaustion is
a normal terminal `none` from `next` (the model is total, so no panic is
possible) and does not require the state to be solved. -/
theorem claim_C3_metamoves_exhaustion_iff (s : MetaMoveSolver)
    (hph : s.phase = SolvePhase.Metamoves) (hbuf : s.buffered_turns = [])
    (hmm : ∀ mm ∈ s.metamoves, mm.turns ≠ []) :
    (s.next).1 = none ↔
      ¬ ∃ x, IsCombo s.metamoves s.puzzle s.depth x ∧
        s.puzzle.get_num_solved_pieces s.state < scoreAfter s.puzzle s.state x := by
  rw [next_of_empty_metamoves s hbuf hph]
  have hiff := find_best_turns_nil_iff s.puzzle s.state s.metamoves s.depth hmm
  constructor
  · intro hnone
    rcases hT : (find_best_metamove s.puzzle s.state s.metamoves s.depth).turns
      with _ | ⟨u, rest⟩
    · rintro ⟨x, hco, himp⟩
      exact (hiff.1 hT)
        ⟨x, (isCombo_iff_mem_visited s.metamoves s.puzzle s.depth x).1 hco, himp⟩
    · rw [metamovePull_of_cons s u rest hT] at hnone
      simp at hnone
  · intro hno
    have hnil := hiff.2 (fun hex => by
      obtain ⟨x, hmem, himp⟩ := hex
      exact hno ⟨x, (isCombo_iff_mem_visited s.metamoves s.puzzle s.depth x).2 hmem, himp⟩)
    rw [metamovePull_of_nil s hnil]

/-- Witness for C3 at a concrete solved solver in the Metamoves phase. -/
theorem claim_C3_witness :
    solverP2SolvedMM.phase = SolvePhase.Metamoves ∧
    solverP2SolvedMM.buffered_turns = [] ∧
    ((solverP2SolvedMM.next).1 = none ↔
      ¬ ∃ x, IsCombo solverP2SolvedMM.metamoves solverP2SolvedMM.puzzle
          solverP2SolvedMM.depth x ∧
        solverP2SolvedMM.puzzle.get_num_solved_pieces solverP2SolvedMM.state
          < scoreAfter solverP2SolvedMM.puzzle solverP2SolvedMM.state x) :=
  ⟨rfl, rfl,
   claim_C3_metamoves_exhaustion_iff solverP2SolvedMM rfl rfl (by decide)⟩

/-- C9 (counterexample): a pull that returns `none` is not always
state-preserving as the claim asserts: from the Search phase with no
improving combination anywhere, the pull returns `none` but flips the phase
to Metamoves. -/
theorem claim_C9_counterexample :
    (solverP2Solved.next).1 = none ∧
    (solverP2Solved.next).2.phase ≠ solverP2Solved.phase := by
  constructor
  · decide
  · decide

/-- C9 (amended): if a pull returns `none`, then the puzzle state, the
buffer, the metamove library, the search depth and the puzzle itself are
unchanged (the phase may advance from Search to Metamoves on that pull), and
the resulting solver is a fixed point: the next pull again returns `none`
with the solver unchanged, so every subsequent pull returns `none`. -/
theorem claim_C9_amended_exhaustion_absorbing (s s' : MetaMoveSolver)
    (h : s.next = (none, s')) :
    s'.puzzle = s.puzzle ∧ s'.state = s.state ∧
    s'.buffered_turns = s.buffered_turns ∧ s'.metamoves = s.metamoves ∧
    s'.depth = s.depth ∧ s'.next = (none, s') := by
  rcases hbuf : s.buffered_turns with _ | ⟨u, rest⟩
  · cases hph : s.phase with
    | Search =>
      rw [next_of_empty_search s hbuf hph] at h
      cases hsa : searchAttempt s with
      | found u s1 =>
        rw [hsa] at h
        injection h with h1 h2
        cases h1
      | earlyNone =>
        rw [hsa] at h
        injection h with h1 h2
        rw [← h2]
        refine ⟨rfl, rfl, hbuf, rfl, rfl, ?_⟩
        rw [next_of_empty_search s hbuf hph, hsa]
      | noneFound =>
        rw [hsa] at h
        rcases hT : (find_best_metamove s.puzzle s.state s.metamoves s.depth).turns
          with _ | ⟨u, rest⟩
        · rw [metamovePull_of_nil { s with phase := SolvePhase.Metamoves } hT] at h
          injection h with h1 h2
          rw [← h2]
          refine ⟨rfl, rfl, hbuf, rfl, rfl, ?_⟩
          rw [next_of_empty_metamoves { s with phase := SolvePhase.Metamoves } hbuf rfl,
            metamovePull_of_nil { s with phase := SolvePhase.Metamoves } hT]
        · rw [metamovePull_of_cons { s with phase := SolvePhase.Metamoves } u rest hT] at h
          injection h with h1 h2
          cases h1
    | Metamoves =>
      rw [next_of_empty_metamoves s hbuf hph] at h
      rcases hT : (find_best_metamove s.puzzle s.state s.metamoves s.depth).turns
        with _ | ⟨u, rest⟩
      · rw [metamovePull_of_nil s hT] at h
        injection h with h1 h2
        rw [← h2]
        refine ⟨rfl, rfl, hbuf, rfl, rfl, ?_⟩
        rw [next_of_empty_metamoves s hbuf hph, metamovePull_of_nil s hT]
      · rw [metamovePull_of_cons s u rest hT] at h
        injection h with h1 h2
        cases h1
  · rw [next_of_buffered s u rest hbuf] at h
    injection h with h1 h2
    cases h1

/-- Witness for the amended C9 at a concrete exhausted solver. -/
theorem claim_C9_amended_witness :
    solverP2SolvedMM.next = (none, solverP2SolvedMM) ∧
    (solverP2SolvedMM.puzzle = solverP2SolvedMM.puzzle ∧
     solverP2SolvedMM.state = solverP2SolvedMM.state ∧
     solverP2SolvedMM.buffered_turns = solverP2SolvedMM.buffered_turns ∧
     solverP2SolvedMM.metamoves = solverP2SolvedMM.metamoves ∧
     solverP2SolvedMM.depth = solverP2SolvedMM.depth ∧
     solverP2SolvedMM.next = (none, solverP2SolvedMM)) :=
  ⟨by decide,
   claim_C9_amended_exhaustion_absorbing solverP2SolvedMM solverP2SolvedMM (by decide)⟩

/-! ### C4: the discovery acceptance predicate -/

theorem composeFaceMap_identity_left {n : Nat} {g : FaceMap} (hg : ∀ j ∈ g, j < n) :
    composeFaceMap (identityFaceMap n) g = g := by
  unfold composeFaceMap identityFaceMap
  have hpt : ∀ j ∈ g, (List.range n).getD j 0 = j := by
    intro j hj
    rw [List.getD_eq_getElem _ _ (by simpa using hg j hj)]
    simp
  calc g.map (fun j => (List.range n).getD j 0) = g.map id := List.map_congr_left hpt
    _ = g := List.map_id g

theorem new_infer_single (p : TwistyPuzzle) (hwf : p.WF) (hne : p.turns ≠ []) :
    (MetaMove.new_infer_face_map p [0]).num_affected_pieces
      = countAffected (p.turns.getD 0 (identityFaceMap p.get_num_pieces)) := by
  have hmem : p.turns.getD 0 (identityFaceMap p.get_num_pieces) ∈ p.turns := by
    rcases hT : p.turns with _ | ⟨t, ts⟩
    · exact absurd hT hne
    · rw [List.getD_cons_zero]
      exact List.mem_cons_self t ts
  have hg : ∀ j ∈ p.turns.getD 0 (identityFaceMap p.get_num_pieces),
      j < p.get_num_pieces := (hwf _ hmem).2
  show countAffected (composeFaceMap (identityFaceMap p.get_num_pieces)
    (p.turns.getD 0 (identityFaceMap p.get_num_pieces))) = _
  exact congrArg countAffected (composeFaceMap_identity_left hg)

/-- C4 (counterexample): the predicate does not coincide with "affects fewer
pieces than a single raw turn" on puzzles whose turns displace different
numbers of pieces.  On `P4` (turns displacing 4 resp. 2 pieces) the
predicate accepts the discovered metamove `mmC4` (2 pieces) although `mmC4`
does not affect fewer pieces than every raw turn; on `P4R` (turns displacing
2 resp. 4 pieces) the predicate rejects the visited combination `mmSmall`
(2 pieces) although some raw turn displaces more — the code only compares
against the turn with index 0. -/
theorem claim_C4_counterexample :
    (metamoveAcceptFn P4 mmC4 = true ∧
     mmC4 ∈ discover_metamoves P4 (metamoveAcceptFn P4) 5 ∧
     ¬ (∀ i < P4.turns.length, mmC4.num_affected_pieces <
         countAffected (P4.turns.getD i (identityFaceMap P4.get_num_pieces)))) ∧
    (metamoveAcceptFn P4R mmSmall = false ∧
     mmSmall ∈ visitedNodes (individual_turns_metamoves P4R) MetaMove.apply 5
       (MetaMove.empty P4R) ∧
     ∃ i < P4R.turns.length, mmSmall.num_affected_pieces <
       countAffected (P4R.turns.getD i (identityFaceMap P4R.get_num_pieces))) :=
  ⟨⟨by decide, by decide, by decide⟩, ⟨by decide, by decide, by decide⟩⟩

/-- C4 (amended): for a well-formed puzzle with at least one turn, the
acceptance predicate passed to `discover_metamoves` holds of a MetaMove `m`
exactly when `m.num_affected_pieces` is smaller than the number of pieces
displaced by the puzzle's first raw turn (the turn with index 0). -/
theorem claim_C4_amended_accept_iff (p : TwistyPuzzle) (hwf : p.WF)
    (hne : p.turns ≠ []) (mm : MetaMove) :
    metamoveAcceptFn p mm = true ↔
      mm.num_affected_pieces
        < countAffected (p.turns.getD 0 (identityFaceMap p.get_num_pieces)) := by
  unfold metamoveAcceptFn
  rw [decide_eq_true_eq, new_infer_single p hwf hne]

/-- Witness for the amended C4 at the concrete puzzle `P4`. -/
theorem claim_C4_amended_witness :
    P4.WF ∧ P4.turns ≠ [] ∧
    (metamoveAcceptFn P4 mmC4 = true ↔
      mmC4.num_affected_pieces
        < countAffected (P4.turns.getD 0 (identityFaceMap P4.get_num_pieces))) :=
  ⟨by decide, by decide, claim_C4_amended_accept_iff P4 (by decide) (by decide) mmC4⟩

/-! ### C5: deduplication -/

theorem mem_fdInsert_keys (mm : MetaMove) :
    ∀ (acc : List (FaceMap × MetaMove)) (k : FaceMap),
      k ∈ (fdInsert acc mm).map Prod.fst ↔
        k ∈ acc.map Prod.fst ∨ k = mm.face_map := by
  intro acc
  induction acc with
  | nil =>
    intro k
    simp [fdInsert]
  | cons e0 acc ih =>
    rcases e0 with ⟨k0, v⟩
    intro k
    by_cases h0 : k0 = mm.face_map
    · simp only [fdInsert, if_pos h0, List.map_cons, List.mem_cons, apply_ite Prod.fst,
        ite_self]
      rw [h0]
      tauto
    · simp only [fdInsert, if_neg h0, List.map_cons, List.mem_cons, ih k]
      tauto

theorem fdInsert_keys_nodup (mm : MetaMove) :
    ∀ (acc : List (FaceMap × MetaMove)), (acc.map Prod.fst).Nodup →
      ((fdInsert acc mm).map Prod.fst).Nodup := by
  intro acc
  induction acc with
  | nil =>
    intro _
    simp [fdInsert]
  | cons e0 acc ih =>
    rcases e0 with ⟨k0, v⟩
    intro h
    rw [List.map_cons] at h
    have h' := List.nodup_cons.1 h
    by_cases h0 : k0 = mm.face_map
    · simp only [fdInsert, if_pos h0, List.map_cons, apply_ite Prod.fst, ite_self]
      exact h
    · simp only [fdInsert, if_neg h0, List.map_cons, List.nodup_cons]
      refine ⟨?_, ih h'.2⟩
      intro hc
      rw [mem_fdInsert_keys] at hc
      rcases hc with hc | hc
      · exact h'.1 hc
      · exact h0 hc

theorem fdInsert_good (mm : MetaMove) :
    ∀ (acc : List (FaceMap × MetaMove)) (seen : List MetaMove),
      (∀ e ∈ acc, fdGood seen e) →
      (acc.map Prod.fst).Nodup →
      (∀ y ∈ seen, y.face_map = mm.face_map → mm.face_map ∈ acc.map Prod.fst) →
      ∀ e ∈ fdInsert acc mm, fdGood (seen ++ [mm]) e := by
  intro acc
  induction acc with
  | nil =>
    intro seen hgood hnd hcomp e he
    simp only [fdInsert, List.mem_singleton] at he
    subst he
    refine ⟨rfl, List.mem_append_right _ (List.mem_singleton.2 rfl), ?_⟩
    intro y hy hyf
    rcases List.mem_append.1 hy with hy | hy
    · exact absurd (hcomp y hy hyf) (by simp)
    · rw [List.mem_singleton.1 hy]
  | cons e0 acc ih =>
    rcases e0 with ⟨k, v⟩
    intro seen hgood hnd hcomp e he
    by_cases hk : k = mm.face_map
    · subst hk
      simp only [fdInsert, if_pos rfl] at he
      rcases List.mem_cons.1 he with he | he
      · by_cases hlen : v.turns.length > mm.turns.length
        · rw [if_pos hlen] at he
          subst he
          obtain ⟨hface, hmemv, hminv⟩ := hgood (mm.face_map, v) (List.mem_cons_self _ _)
          refine ⟨rfl, List.mem_append_right _ (List.mem_singleton.2 rfl), ?_⟩
          intro y hy hyf
          rcases List.mem_append.1 hy with hy | hy
          · exact le_trans (le_of_lt hlen) (hminv y hy hyf)
          · rw [List.mem_singleton.1 hy]
        · rw [if_neg hlen] at he
          subst he
          obtain ⟨hface, hmemv, hminv⟩ := hgood (mm.face_map, v) (List.mem_cons_self _ _)
          refine ⟨hface, List.mem_append_left _ hmemv, ?_⟩
          intro y hy hyf
          rcases List.mem_append.1 hy with hy | hy
          · exact hminv y hy hyf
          · rw [List.mem_singleton.1 hy] at hyf ⊢
            exact not_lt.1 hlen
      · obtain ⟨hface, hmem, hmin⟩ := hgood e (List.mem_cons_of_mem _ he)
        refine ⟨hface, List.mem_append_left _ hmem, ?_⟩
        intro y hy hyf
        rcases List.mem_append.1 hy with hy | hy
        · exact hmin y hy hyf
        · rw [List.mem_singleton.1 hy] at hyf
          exfalso
          have hkey : e.1 ∈ acc.map Prod.fst := List.mem_map_of_mem Prod.fst he
          rw [← hyf] at hkey
          rw [List.map_cons] at hnd
          exact (List.nodup_cons.1 hnd).1 hkey
    · simp only [fdInsert, if_neg hk] at he
      rcases List.mem_cons.1 he with he | he
      · subst he
        obtain ⟨hface, hmem, hmin⟩ := hgood (k, v) (List.mem_cons_self _ _)
        refine ⟨hface, List.mem_append_left _ hmem, ?_⟩
        intro y hy hyf
        rcases List.mem_append.1 hy with hy | hy
        · exact hmin y hy hyf
        · rw [List.mem_singleton.1 hy] at hyf
          exact absurd hyf.symm hk
      · rw [List.map_cons] at hnd
        have h' := List.nodup_cons.1 hnd
        refine ih seen (fun e' he' => hgood e' (List.mem_cons_of_mem _ he')) h'.2 ?_ e he
        intro y hy hyf
        have hks := hcomp y hy hyf
        simp only [List.map_cons, List.mem_cons] at hks
        rcases hks with hks | hks
        · exact absurd hks.symm hk
        · exact hks

theorem fdInsert_complete (mm : MetaMove) (acc : List (FaceMap × MetaMove))
    (y : MetaMove)
    (h : (∃ e ∈ acc, e.1 = y.face_map) ∨ y.face_map = mm.face_map) :
    ∃ e ∈ fdInsert acc mm, e.1 = y.face_map := by
  have hkey : y.face_map ∈ (fdInsert acc mm).map Prod.fst := by
    rw [mem_fdInsert_keys]
    rcases h with ⟨e, he, hfe⟩ | hfm
    · exact Or.inl (hfe ▸ List.mem_map_of_mem Prod.fst he)
    · exact Or.inr hfm
  rcases List.mem_map.1 hkey with ⟨e, he, hfe⟩
  exact ⟨e, he, hfe⟩

theorem fd_foldl :
    ∀ (l : List MetaMove) (acc : List (FaceMap × MetaMove)) (seen : List MetaMove),
      (∀ e ∈ acc, fdGood seen e) → (acc.map Prod.fst).Nodup →
      (∀ y ∈ seen, ∃ e ∈ acc, e.1 = y.face_map) →
      (∀ e ∈ l.foldl fdInsert acc, fdGood (seen ++ l) e) ∧
      ((l.foldl fdInsert acc).map Prod.fst).Nodup ∧
      (∀ y ∈ seen ++ l, ∃ e ∈ l.foldl fdInsert acc, e.1 = y.face_map) := by
  intro l
  induction l with
  | nil =>
    intro acc seen h1 h2 h3
    simp only [List.foldl_nil, List.append_nil]
    exact ⟨h1, h2, h3⟩
  | cons mm l ih =>
    intro acc seen h1 h2 h3
    have hg := fdInsert_good mm acc seen h1 h2 (fun y hy hyf => by
      obtain ⟨e, he, hfe⟩ := h3 y hy
      rw [← (hfe.trans hyf)]
      exact List.mem_map_of_mem Prod.fst he)
    have hnd' := fdInsert_keys_nodup mm acc h2
    have hcomp' : ∀ y ∈ seen ++ [mm], ∃ e ∈ fdInsert acc mm, e.1 = y.face_map := by
      intro y hy
      rcases List.mem_append.1 hy with hy | hy
      · exact fdInsert_complete mm acc y (Or.inl (h3 y hy))
      · rw [List.mem_singleton.1 hy]
        exact fdInsert_complete mm acc mm (Or.inr rfl)
    have hrec := ih (fdInsert acc mm) (seen ++ [mm]) hg hnd' hcomp'
    simpa [List.append_assoc] using hrec

theorem fd_pairwise :
    ∀ (tbl : List (FaceMap × MetaMove)),
      (∀ e ∈ tbl, e.2.face_map = e.1) → (tbl.map Prod.fst).Nodup →
      (tbl.map Prod.snd).Pairwise (fun a b => a.face_map ≠ b.face_map) := by
  intro tbl
  induction tbl with
  | nil =>
    intro _ _
    simp
  | cons e tbl ih =>
    intro hface hnd
    rw [List.map_cons] at hnd
    have hnd' := List.nodup_cons.1 hnd
    simp only [List.map_cons, List.pairwise_cons]
    constructor
    · intro b hb
      rcases List.mem_map.1 hb with ⟨e2, he2, rfl⟩
      rw [hface e (List.mem_cons_self _ _), hface e2 (List.mem_cons_of_mem _ he2)]
      intro hcontra
      exact hnd'.1 (hcontra ▸ List.mem_map_of_mem Prod.fst he2)
    · exact ih (fun e' he' => hface e' (List.mem_cons_of_mem _ he')) hnd'.2

/-- C5: `filter_duplicates` returns a list in which no two retained MetaMoves
share a `face_map`, every retained MetaMove is an element of the input, and
each retained MetaMove has the minimum turns length among all inputs sharing
its `face_map`. -/
theorem claim_C5_filter_duplicates (l : List MetaMove) : filterDuplicatesSpec l := by
  obtain ⟨hgood, hnd, -⟩ := fd_foldl l [] []
    (by simp) (by simp) (by simp)
  refine ⟨?_, ?_, ?_⟩
  · unfold filter_duplicates
    exact fd_pairwise _ (fun e he => (hgood e he).1) hnd
  · intro mm hmm
    unfold filter_duplicates at hmm
    rcases List.mem_map.1 hmm with ⟨e, he, rfl⟩
    exact (hgood e he).2.1
  · intro mm hmm y hy hyf
    unfold filter_duplicates at hmm
    rcases List.mem_map.1 hmm with ⟨e, he, rfl⟩
    obtain ⟨hface, -, hmin⟩ := hgood e he
    exact hmin y hy (by rw [hyf, hface])

/-- Witness for C5: a concrete run of `filter_duplicates` on a list with a
duplicated effect keeps the shorter representative. -/
theorem claim_C5_witness :
    filter_duplicates lC5 = [MetaMove.new [1] [0, 1], MetaMove.new [0] [1, 0]] ∧
    filterDuplicatesSpec lC5 :=
  ⟨by decide, claim_C5_filter_duplicates lC5⟩

/-! ### C8: construction aborts on an empty library -/

/-- C8: every successfully constructed `MetaMoveSolver` holds a non-empty
metamove library; when the discovery/combination/filter pipeline produces an
empty library, construction aborts (`MetaMoveSolver.new` returns `none`,
modelling the `unwrap` panics and `throw_str`). -/
theorem claim_C8_construction_nonempty (p : TwistyPuzzle)
    (initial_state : PuzzleState) (s : MetaMoveSolver)
    (h : MetaMoveSolver.new p initial_state = some s) :
    s.metamoves ≠ [] := by
  simp only [MetaMoveSolver.new] at h
  split at h
  · exact Option.noConfusion h
  · split at h
    · exact Option.noConfusion h
    · split at h
      · exact Option.noConfusion h
      · split at h
        · exact Option.noConfusion h
        · rename_i hg
          injection h with h
          rw [← h]
          exact hg

/-- Witness for C8: construction on the two-piece swap puzzle succeeds and
yields a non-empty library. -/
theorem claim_C8_witness :
    MetaMoveSolver.new P2 [0, 1] = some solverNewP2 ∧ solverNewP2.metamoves ≠ [] :=
  ⟨by decide,
   claim_C8_construction_nonempty P2 [0, 1] solverNewP2 (by decide)⟩

/-! ### C2: the Search phase -/

/-- C2: in the Search phase with an empty buffer, the solver searches
combinations of raw single turns at depths 4 then 5 in increasing order,
selecting the combination that most improves the score with ties broken by
fewest turns; if an improving combination exists at a tried depth, its first
turn is applied and returned and the remaining turns are buffered, the chosen
combination being optimal among the combinations of that depth (so the next
depth is not consulted); if no tried depth yields any improvement, the solver
transitions to the Metamoves phase. -/
theorem claim_C2_search_phase (s : MetaMoveSolver) (hph : s.phase = SolvePhase.Search)
    (hbuf : s.buffered_turns = []) (hwf : s.puzzle.WF)
    (hlen : s.state.length = s.puzzle.get_num_pieces) :
    searchPhaseSpec s := by
  have hnext := next_of_empty_search s hbuf hph
  unfold searchPhaseSpec
  refine ⟨?_, ?_, ?_⟩
  · -- improvement exists at depth 4
    intro himp
    have himp4 : ∃ x ∈ visitedNodes (individual_turns_metamoves s.puzzle)
        MetaMove.apply 4 (MetaMove.empty s.puzzle),
        s.puzzle.get_num_solved_pieces s.state < scoreAfter s.puzzle s.state x := by
      obtain ⟨x, hco, hgt⟩ := himp
      exact ⟨x, (isCombo_iff_mem_visited _ _ _ _).1 hco, hgt⟩
    obtain ⟨hmem, hgt, hsc, hmax, hties⟩ := searchRun_improve s.puzzle s.state
      (s.puzzle.get_num_solved_pieces s.state) 4 himp4
    have hne : (searchRun s.puzzle s.state
        (MetaMove.empty s.puzzle, s.puzzle.get_num_solved_pieces s.state) 4).1.turns
        ≠ [] := visitedNodes_turns_ne_nil (pool_turns_ne_nil s.puzzle) hmem
    rcases hbt : (searchRun s.puzzle s.state
        (MetaMove.empty s.puzzle, s.puzzle.get_num_solved_pieces s.state) 4).1.turns
      with _ | ⟨t, rest⟩
    · exact absurd hbt hne
    · have hna : (searchRun s.puzzle s.state
          (MetaMove.empty s.puzzle, s.puzzle.get_num_solved_pieces s.state) 4).1.num_affected_pieces
          ≠ 0 :=
        improving_num_affected s.puzzle s.state hwf hlen hmem (by rw [hsc]; exact hgt)
      have hsa : searchAttempt s = applyBest s (searchRun s.puzzle s.state
          (MetaMove.empty s.puzzle, s.puzzle.get_num_solved_pieces s.state) 4).1 := by
        simp only [searchAttempt]
        rw [if_pos hna]
      have hap : applyBest s (searchRun s.puzzle s.state
          (MetaMove.empty s.puzzle, s.puzzle.get_num_solved_pieces s.state) 4).1
          = SearchOutcome.found t
            { s with state := s.puzzle.get_derived_state_turn_index s.state t,
                     buffered_turns := if 1 < (t :: rest).length then rest
                       else s.buffered_turns } := by
        unfold applyBest
        rw [hbt]
      have hXbuf : (if 1 < (t :: rest).length then rest else s.buffered_turns) = rest := by
        cases rest with
        | nil => rw [if_neg (by simp), hbuf]
        | cons r1 rr => rw [if_pos (by simp only [List.length_cons]; omega)]
      refine ⟨_, t, rest, hbt, (isCombo_iff_mem_visited _ _ _ _).2 hmem,
        by rw [hsc]; exact hgt, ?_, ?_, ?_⟩
      · intro x hx
        rw [hsc]
        exact hmax x ((isCombo_iff_mem_visited _ _ _ _).1 hx)
      · intro x hx hxe
        exact hties x ((isCombo_iff_mem_visited _ _ _ _).1 hx) (by rw [← hsc]; exact hxe)
      · rw [hnext, hsa, hap, hXbuf]
  · -- no improvement at depth 4, improvement at depth 5
    intro hno4 himp
    have hall4 : ∀ x ∈ visitedNodes (individual_turns_metamoves s.puzzle)
        MetaMove.apply 4 (MetaMove.empty s.puzzle),
        scoreAfter s.puzzle s.state x ≤ s.puzzle.get_num_solved_pieces s.state :=
      fun x hx => not_lt.1 (fun hgt =>
        hno4 ⟨x, (isCombo_iff_mem_visited _ _ _ _).2 hx, hgt⟩)
    have e4 := searchRun_no_improve s.puzzle s.state
      (s.puzzle.get_num_solved_pieces s.state) 4 hall4
    have himp5 : ∃ x ∈ visitedNodes (individual_turns_metamoves s.puzzle)
        MetaMove.apply 5 (MetaMove.empty s.puzzle),
        s.puzzle.get_num_solved_pieces s.state < scoreAfter s.puzzle s.state x := by
      obtain ⟨x, hco, hgt⟩ := himp
      exact ⟨x, (isCombo_iff_mem_visited _ _ _ _).1 hco, hgt⟩
    obtain ⟨hmem, hgt, hsc, hmax, hties⟩ := searchRun_improve s.puzzle s.state
      (s.puzzle.get_num_solved_pieces s.state) 5 himp5
    have hne : (searchRun s.puzzle s.state
        (MetaMove.empty s.puzzle, s.puzzle.get_num_solved_pieces s.state) 5).1.turns
        ≠ [] := visitedNodes_turns_ne_nil (pool_turns_ne_nil s.puzzle) hmem
    rcases hbt : (searchRun s.puzzle s.state
        (MetaMove.empty s.puzzle, s.puzzle.get_num_solved_pieces s.state) 5).1.turns
      with _ | ⟨t, rest⟩
    · exact absurd hbt hne
    · have hna : (searchRun s.puzzle s.state
          (MetaMove.empty s.puzzle, s.puzzle.get_num_solved_pieces s.state) 5).1.num_affected_pieces
          ≠ 0 :=
        improving_num_affected s.puzzle s.state hwf hlen hmem (by rw [hsc]; exact hgt)
      have hsa : searchAttempt s = applyBest s (searchRun s.puzzle s.state
          (MetaMove.empty s.puzzle, s.puzzle.get_num_solved_pieces s.state) 5).1 := by
        simp only [searchAttempt]
        rw [e4]
        rw [if_neg (show ¬((MetaMove.empty s.puzzle,
          s.puzzle.get_num_solved_pieces s.state).1.num_affected_pieces ≠ 0) by
            simp [empty_num_affected])]
        rw [if_pos hna]
      have hap : applyBest s (searchRun s.puzzle s.state
          (MetaMove.empty s.puzzle, s.puzzle.get_num_solved_pieces s.state) 5).1
          = SearchOutcome.found t
            { s with state := s.puzzle.get_derived_state_turn_index s.state t,
                     buffered_turns := if 1 < (t :: rest).length then rest
                       else s.buffered_turns } := by
        unfold applyBest
        rw [hbt]
      have hXbuf : (if 1 < (t :: rest).length then rest else s.buffered_turns) = rest := by
        cases rest with
        | nil => rw [if_neg (by simp), hbuf]
        | cons r1 rr => rw [if_pos (by simp only [List.length_cons]; omega)]
      refine ⟨_, t, rest, hbt, (isCombo_iff_mem_visited _ _ _ _).2 hmem,
        by rw [hsc]; exact hgt, ?_, ?_, ?_⟩
      · intro x hx
        rw [hsc]
        exact hmax x ((isCombo_iff_mem_visited _ _ _ _).1 hx)
      · intro x hx hxe
        exact hties x ((isCombo_iff_mem_visited _ _ _ _).1 hx) (by rw [← hsc]; exact hxe)
      · rw [hnext, hsa, hap, hXbuf]
  · -- no improvement at either depth: fall through to the Metamoves phase
    intro hno5
    have hall5 : ∀ x ∈ visitedNodes (individual_turns_metamoves s.puzzle)
        MetaMove.apply 5 (MetaMove.empty s.puzzle),
        scoreAfter s.puzzle s.state x ≤ s.puzzle.get_num_solved_pieces s.state :=
      fun x hx => not_lt.1 (fun hgt =>
        hno5 ⟨x, (isCombo_iff_mem_visited _ _ _ _).2 hx, hgt⟩)
    rw [hnext, searchAttempt_no_improve s hall5]

/-- Witness for C2 at a concrete scrambled solver in the Search phase. -/
theorem claim_C2_witness :
    solverP2Scrambled.phase = SolvePhase.Search ∧
    solverP2Scrambled.buffered_turns = [] ∧
    solverP2Scrambled.puzzle.WF ∧
    solverP2Scrambled.state.length = solverP2Scrambled.puzzle.get_num_pieces ∧
    searchPhaseSpec solverP2Scrambled :=
  ⟨rfl, rfl, by decide, by decide,
   claim_C2_search_phase solverP2Scrambled rfl rfl (by decide) (by decide)⟩

/-! ### C6: Break on a fully solved combination -/

/-- C6: during a Metamoves-phase search, any visited combination reaching the
full score appears only as the very last visited combination — the visitor
returns `Break` there and the traversal visits nothing further — and the
returned best metamove is that fully solving combination whenever the
starting state was not already solved. -/
theorem claim_C6_break_on_solve (p : TwistyPuzzle) (st : PuzzleState)
    (metamoves : List MetaMove) (depth : Nat) :
    (∀ v ∈ (find_best_metamove_log p st metamoves depth).1.2.dropLast,
      scoreAfter p st v ≠ p.get_num_pieces) ∧
    (∀ v ∈ (find_best_metamove_log p st metamoves depth).1.2,
      scoreAfter p st v = p.get_num_pieces →
      (find_best_metamove_log p st metamoves depth).2 = TraverseResult.Break ∧
      (find_best_metamove_log p st metamoves depth).1.2.getLast? = some v ∧
      (p.get_num_solved_pieces st < p.get_num_pieces →
        find_best_metamove p st metamoves depth = v)) := by
  have hlog := scan_fblog p st
    (visitedNodes metamoves MetaMove.apply depth (MetaMove.empty p))
    ((MetaMove.empty p, p.get_num_solved_pieces st), [])
  rw [← find_best_log_eq] at hlog
  obtain ⟨reg, hreg, hcont, hbrk⟩ := hlog
  have hreg' : (find_best_metamove_log p st metamoves depth).1.2 = reg := by
    simpa using hreg
  have hproj := scan_log_proj p st
    (visitedNodes metamoves MetaMove.apply depth (MetaMove.empty p))
    (MetaMove.empty p, p.get_num_solved_pieces st) []
  rw [← find_best_log_eq, ← find_best_run_eq] at hproj
  have hbest : find_best_metamove p st metamoves depth
      = (find_best_metamove_log p st metamoves depth).1.1.1 := by
    unfold find_best_metamove
    rw [← hproj]
  cases hr : (find_best_metamove_log p st metamoves depth).2 with
  | Continue =>
    obtain ⟨hnone, -⟩ := hcont hr
    constructor
    · intro v hv
      rw [hreg'] at hv
      exact hnone v (List.dropLast_subset _ hv)
    · intro v hv hsol
      rw [hreg'] at hv
      exact absurd hsol (hnone v hv)
  | Break =>
    obtain ⟨reg0, w, hre, hreg0, hw, hb⟩ := hbrk hr
    constructor
    · intro v hv
      rw [hreg', hre, List.dropLast_concat] at hv
      exact hreg0 v hv
    · intro v hv hsol
      have hvw : v = w := by
        rw [hreg', hre] at hv
        rcases List.mem_append.1 hv with hv | hv
        · exact absurd hsol (hreg0 v hv)
        · exact List.mem_singleton.1 hv
      subst hvw
      refine ⟨rfl, ?_, ?_⟩
      · rw [hreg', hre]
        exact List.getLast?_concat _
      · intro hs0
        rw [hbest]
        exact (hb hs0).1

/-- Witness for C6: on the two-piece puzzle from the scrambled state, the
first visited combination solves the puzzle, the scan breaks there, and the
returned best metamove is that combination. -/
theorem claim_C6_witness :
    (find_best_metamove_log P2 [1, 0] [mmSwap] 2).2 = TraverseResult.Break ∧
    find_best_metamove P2 [1, 0] [mmSwap] 2 = mmSwap := by
  have h := claim_C6_break_on_solve P2 [1, 0] [mmSwap] 2
  have hm : mmSwap ∈ (find_best_metamove_log P2 [1, 0] [mmSwap] 2).1.2 := by decide
  have hs : scoreAfter P2 [1, 0] mmSwap = P2.get_num_pieces := by decide
  obtain ⟨hbr, hlast, hbest⟩ := h.2 mmSwap hm hs
  exact ⟨hbr, hbest (by decide)⟩

end TwistyPuzzles
